import Mathlib

/-!
Verification of the Scheme interpreter written in Go
(`pkg/lexer`, `pkg/parser`, `pkg/interpreter`).

The development shallowly embeds the final iteration of each component:
the channel-based lexer (`NewLexer`/`NextToken` state machine), the
quote-level parser (`Parser.next`) and the evaluator whose functions
return `(Expression, *Error)` pairs.

Modelling conventions:
* Go `float64` numbers are modelled by `ℚ`.  Every computation appearing
  in a theorem below is exact over the integers, where `float64` and `ℚ`
  agree; `strconv.FormatFloat(v, 'f', -1, 64)` is modelled only for
  integral values (the only values printed in this development).
* Go maps from strings to expressions are modelled by association lists;
  lookup agrees with map lookup, insertion shadows the previous binding.
* A Go runtime panic (integer division by zero, index out of range,
  explicit `panic(...)`) is modelled by the `EvalRes.panicked` outcome:
  it kills the host process, unlike a returned `*p.Error`.
* File input in `evalLoad` is outside the embedded state; reaching it
  yields the explicit marker `EvalRes.unmodeled` (no claim below
  evaluates a `load` form).
* Recursion through the environment (user lambdas) is made total with a
  fuel parameter; `none` means the fuel ran out and carries no claim.
-/

namespace GoScheme

attribute [local semireducible] Rat.mul Rat.add Rat.sub Rat.inv

/-- Identifiers for the built-in procedures installed by
`addDefaultDefs` in the interpreter. -/
inductive Prim where
  | add | mul | sub | div
  | eq | lt | le | gt | ge
  | isNumber | isNull
  | andP | orP
  | remainder | quotient | expt
  | listP | consP | carP | cdrP
  | isPair | isList
  | maxP | minP
  deriving DecidableEq, Repr

/-- The `SpecialType` tags of the parser package. -/
inductive SpecialType where
  | exitT
  | closeBracketT
  deriving DecidableEq, Repr

/-- The expression variants of the parser package: `Number`, `Variable`,
`ExprList`, `Procedure`, `Lambda`, `Symbol`, `VoidExpr`, `SpecialExpr`.
`Procedure` values are identified by the built-in they wrap. -/
inductive Expr where
  | num (val : ℚ) (qlevel : ℕ)
  | var (val : String)
  | lst (l : List Expr) (qlevel : ℕ)
  | proc (fn : Prim)
  | lam (name : String) (params : List Expr) (body : List Expr)
  | sym (val : String) (qlevel : ℕ)
  | voidE
  | special (typ : SpecialType)
  deriving Repr

/-- The `NullSym` singleton: the symbol `()` at quote level 1. -/
def nullSym : Expr := .sym "()" 1

/-- The `FalseSym` singleton: the symbol `#f` at quote level 1. -/
def falseSym : Expr := .sym "#f" 1

/-- The `TrueSym` singleton: the symbol `#t` at quote level 1. -/
def trueSym : Expr := .sym "#t" 1

/-- Test from the parser package: `IsNullSym` compares a `Symbol` (value
and quote level) against the `NullSym` singleton. -/
def isNullSym : Expr → Bool
  | .sym s q => s = "()" && q = 1
  | _ => false

/-- Test from the parser package: `IsFalseSym` compares a `Symbol`
against the `FalseSym` singleton; everything else counts as true. -/
def isFalseSym : Expr → Bool
  | .sym s q => s = "#f" && q = 1
  | _ => false

/-- Test from the parser package: `IsSpecialExit`. -/
def isSpecialExit : Expr → Bool
  | .special t => t = SpecialType.exitT
  | _ => false

/-- Quote level stored on an expression (0 for the variants that carry
none); used to state claims about `qlevel` fields. -/
def qlevelOf : Expr → ℕ
  | .num _ q => q
  | .lst _ q => q
  | .sym _ q => q
  | _ => 0

mutual

/-- Boolean structural equality on expressions (Go `==` on the
dereferenced structs / deep equality on lists). -/
def beqExpr : Expr → Expr → Bool
  | .num v q, .num v' q' => v == v' && q == q'
  | .var s, .var s' => s == s'
  | .lst l q, .lst l' q' => beqList l l' && q == q'
  | .proc f, .proc f' => f == f'
  | .lam n p b, .lam n' p' b' => n == n' && beqList p p' && beqList b b'
  | .sym s q, .sym s' q' => s == s' && q == q'
  | .voidE, .voidE => true
  | .special t, .special t' => t == t'
  | _, _ => false

/-- Boolean structural equality on expression lists. -/
def beqList : List Expr → List Expr → Bool
  | [], [] => true
  | x :: xs, y :: ys => beqExpr x y && beqList xs ys
  | _, _ => false

end

mutual

theorem beqExpr_iff : ∀ a b, beqExpr a b = true ↔ a = b
  | .num v q, b => by cases b <;> simp [beqExpr]
  | .var s, b => by cases b <;> simp [beqExpr]
  | .lst l q, b => by cases b <;> simp [beqExpr, beqList_iff l]
  | .proc f, b => by cases b <;> simp [beqExpr]
  | .lam n p bd, b => by
    cases b <;> simp [beqExpr, beqList_iff p, beqList_iff bd, and_assoc]
  | .sym s q, b => by cases b <;> simp [beqExpr]
  | .voidE, b => by cases b <;> simp [beqExpr]
  | .special t, b => by cases b <;> simp [beqExpr]

theorem beqList_iff : ∀ xs ys, beqList xs ys = true ↔ xs = ys
  | [], ys => by cases ys <;> simp [beqList]
  | x :: xs, ys => by cases ys <;> simp [beqList, beqExpr_iff x, beqList_iff xs]

end

instance : DecidableEq Expr := fun a b => decidable_of_iff _ (beqExpr_iff a b)

/-! ## The printer (the `String(qlevel int)` methods of the parser
package) -/

/-- Decimal digits of a natural number, most significant first, with a
fuel bound (structural recursion keeps the definition kernel-reducible;
`natDigits` supplies enough fuel). -/
def natDigitsAux : ℕ → ℕ → List Char
  | 0, _ => []
  | fuel + 1, n =>
    if n < 10 then [Char.ofNat (48 + n)]
    else natDigitsAux fuel (n / 10) ++ [Char.ofNat (48 + n % 10)]

/-- Decimal digits of a natural number, most significant first. -/
def natDigits (n : ℕ) : List Char := natDigitsAux (n + 1) n

/-- Decimal string of a natural number. -/
def natStr (n : ℕ) : String := String.mk (natDigits n)

/-- Decimal string of an integer (used both for `strconv.Itoa` and for
`strconv.FormatFloat(v, 'f', -1, 64)` at integral values). -/
def intStr (i : ℤ) : String :=
  if i < 0 then "-" ++ natStr i.natAbs else natStr i.toNat

/-- Rendering of a number value.  `FormatFloat` is modelled only at
integral values; the non-integral branch is never reached in the
theorems below. -/
def numToString (v : ℚ) : String :=
  if v.den = 1 then intStr v.num else intStr v.num ++ "/" ++ natStr v.den

/-- Utility `getQs`: the quotes printed for an expression of quote level
`exQ` in a printing context of quote level `currQ`. -/
def getQs (exQ currQ : ℕ) : String :=
  if currQ < exQ then String.mk (List.replicate (exQ - currQ) '\'') else ""

mutual

/-- The `String(qlevel int)` method of each expression variant. -/
def exprString : Expr → ℕ → String
  | .num v ql, q => getQs ql (q + 1) ++ numToString v
  | .var s, _ => s
  | .lst l ql, q =>
    match l with
    | [] => getQs ql q ++ "()"
    | _ => getQs ql q ++ "(" ++ elemsString l (ql + 1) true ++ ")"
  | .proc _, _ => "#<procedure>"
  | .lam n _ _, _ =>
    if n.length ≠ 0 then "#<lambda " ++ n ++ ">" else "#<lambda>"
  | .sym s ql, q =>
    let qs := match s.data with
      | '#' :: _ => ql - 1
      | _ => ql
    getQs qs q ++ s
  | .voidE, _ => "#<void>"
  | .special .exitT, _ => "#<exit>"
  | .special .closeBracketT, _ => "Unexpected `)`"

/-- The element loop of `ExprList.String`: all but the last element are
separated by spaces; the last is elided when it is `NullSym` and printed
in dotted-pair notation otherwise. -/
def elemsString : List Expr → ℕ → Bool → String
  | [], _, _ => ""
  | [last], curr, _ =>
    if isNullSym last then "" else " . " ++ exprString last curr
  | x :: y :: rest, curr, first =>
    (if first then "" else " ") ++ exprString x curr ++
      elemsString (y :: rest) curr false

end

/-! ## The lexer (package `lexer`, the `NewLexer`/`NextToken` version)

The Go lexer is a channel-based state machine driven by `NextToken`.
With a single consumer the observable behaviour is the token sequence
delivered by successive `NextToken` calls, ending at the first
`TokenEOF` (`NextToken` turns it into `nil`; tokens queued after an
`EOF` are never delivered).  `lexGeneral` below computes exactly that
sequence; the state functions that only split the input
(`lexIdentifier`, `lexNumber`, `lexDoubleQuote`) become pure splitter
functions.  `unicode.IsLetter` and `unicode.IsSpace` are modelled on
the ASCII range (plus the two Latin-1 spaces); every character fed to
the lexer in the theorems below is ASCII. -/

/-- Token kinds of the lexer package. -/
inductive TokT where
  | errT | eofT | numberT | identT | strT | openT | closeT | quoteT | skipT
  deriving DecidableEq, Repr

/-- A lexer token: kind and lexeme. -/
structure Token where
  typ : TokT
  val : String
  deriving DecidableEq, Repr

/-- White space characters (`unicode.IsSpace` on the Latin-1 range). -/
def isSpaceCh (c : Char) : Bool :=
  c == ' ' || c == '\t' || c == '\n' || c == '\r' ||
    c == '\x0b' || c == '\x0c' || c == '\x85' || c == '\xa0'

/-- Decimal digit test. -/
def isDigitCh (c : Char) : Bool := '0' ≤ c && c ≤ '9'

/-- Letter test (`unicode.IsLetter`, ASCII range). -/
def isLetterCh (c : Char) : Bool :=
  ('a' ≤ c && c ≤ 'z') || ('A' ≤ c && c ≤ 'Z')

/-- The extended identifier alphabet of `lexNumber`. -/
def extAlphaCh (c : Char) : Bool :=
  (['+', '-', '.', '*', '/', '<', '=', '>', '!', '?', ':', '$', '%',
    '_', '&', '~', '^'] : List Char).contains c

/-- Characters that send `lexGeneral` into the `lexNumber` state. -/
def isNumStartCh (c : Char) : Bool :=
  c == '+' || c == '-' || c == '.' || isDigitCh c

/-- Characters that keep the `lexIdentifier` loop running (everything
but white space and a closing bracket). -/
def identCh (c : Char) : Bool := !(isSpaceCh c || c == ')')

/-- The `lexIdentifier` loop starting with `acc` already consumed:
either the identifier token and the unconsumed rest, or the
end-of-file error token (with nothing left). -/
def identSplit (acc rest : List Char) : List Token × List Char :=
  if (rest.dropWhile identCh).isEmpty then
    ([⟨.errT, "expected a `)` to close `(`"⟩], [])
  else
    ([⟨.identT, String.mk (acc ++ rest.takeWhile identCh)⟩],
      rest.dropWhile identCh)

/-- The `lexDoubleQuote` loop (the opening quote is already consumed):
the string lexeme includes both quote characters. -/
def strSplit (cs : List Char) : Option (List Char × List Char) :=
  if (cs.dropWhile (fun c => c != '"')).isEmpty then none
  else some ('"' :: cs.takeWhile (fun c => c != '"') ++ ['"'],
    (cs.dropWhile (fun c => c != '"')).tail)

/-- The optional `accept(".")` followed by a second digit run inside
`lexNumber`.  Returns the count of consumed characters, the consumed
characters and the rest. -/
def dotSplit : List Char → ℕ × List Char × List Char
  | '.' :: t =>
    (1 + (t.takeWhile isDigitCh).length,
      '.' :: t.takeWhile isDigitCh, t.dropWhile isDigitCh)
  | r2 => (0, [], r2)

/-- The consumption of `lexNumber` (sign, digit run, optional dot and
digit run), entered on character `c` with `cs` following.  Returns the
digit-and-dot count `cnt`, the consumed lexeme and the rest. -/
def numSplit (c : Char) (cs : List Char) : ℕ × List Char × List Char :=
  if c == '+' || c == '-' then
    ((cs.takeWhile isDigitCh).length + (dotSplit (cs.dropWhile isDigitCh)).1,
      c :: cs.takeWhile isDigitCh ++ (dotSplit (cs.dropWhile isDigitCh)).2.1,
      (dotSplit (cs.dropWhile isDigitCh)).2.2)
  else
    (((c :: cs).takeWhile isDigitCh).length +
        (dotSplit ((c :: cs).dropWhile isDigitCh)).1,
      (c :: cs).takeWhile isDigitCh ++
        (dotSplit ((c :: cs).dropWhile isDigitCh)).2.1,
      (dotSplit ((c :: cs).dropWhile isDigitCh)).2.2)

/-- The `peek` test of `lexNumber` deciding a switch to the identifier
state. -/
def numIdentCont : List Char → Bool
  | [] => false
  | d :: _ => isLetterCh d || extAlphaCh d

theorem length_dropWhile_le (p : Char → Bool) (l : List Char) :
    (l.dropWhile p).length ≤ l.length :=
  (List.dropWhile_suffix p).length_le

theorem identSplit_rest_le (acc rest : List Char) :
    (identSplit acc rest).2.length ≤ rest.length := by
  unfold identSplit
  split
  · simp
  · exact length_dropWhile_le identCh rest

theorem strSplit_rest_le (cs lexeme rest : List Char)
    (h : strSplit cs = some (lexeme, rest)) : rest.length < cs.length + 1 := by
  unfold strSplit at h
  split at h
  · exact absurd h (by simp)
  · have h2 : rest = (cs.dropWhile (fun c => c != '"')).tail :=
      (Prod.mk.injEq _ _ _ _ ▸ Option.some.inj h).2.symm
    have h1 : (cs.dropWhile (fun c => c != '"')).length ≤ cs.length :=
      length_dropWhile_le _ _
    have h3 : (cs.dropWhile (fun c => c != '"')).tail.length ≤
        (cs.dropWhile (fun c => c != '"')).length := by
      simp [List.length_tail]
    subst h2
    omega

theorem dotSplit_rest_le (r2 : List Char) :
    (dotSplit r2).2.2.length ≤ r2.length := by
  unfold dotSplit
  split
  · next t =>
    have := length_dropWhile_le isDigitCh t
    simp only [List.length_cons]
    omega
  · exact le_refl _

theorem dotSplit_dot_rest_le (t : List Char) :
    (dotSplit ('.' :: t)).2.2.length ≤ t.length := by
  simpa [dotSplit] using length_dropWhile_le isDigitCh t

theorem numSplit_rest_le (c : Char) (cs : List Char)
    (h : isNumStartCh c = true) :
    (numSplit c cs).2.2.length ≤ cs.length := by
  unfold numSplit
  by_cases hs : (c == '+' || c == '-') = true
  · rw [if_pos hs]
    calc (dotSplit (cs.dropWhile isDigitCh)).2.2.length
        ≤ (cs.dropWhile isDigitCh).length := dotSplit_rest_le _
      _ ≤ cs.length := length_dropWhile_le _ _
  · rw [if_neg hs]
    by_cases hd : isDigitCh c = true
    · rw [List.dropWhile_cons_of_pos hd]
      calc (dotSplit (cs.dropWhile isDigitCh)).2.2.length
          ≤ (cs.dropWhile isDigitCh).length := dotSplit_rest_le _
        _ ≤ cs.length := length_dropWhile_le _ _
    · have hc : c = '.' := by
        unfold isNumStartCh at h
        simp only [Bool.or_eq_true, beq_iff_eq] at h hs hd
        tauto
      subst hc
      rw [List.dropWhile_cons_of_neg (by simp [isDigitCh])]
      exact dotSplit_dot_rest_le cs

/-- The token stream observable through `NextToken`: the `lexGeneral`
state run on the remaining input at bracket level `lvl`.  The stream
ends with the first `TokenEOF` (turned into `nil` by `NextToken`, so
tokens a state function queues behind an `EOF` are never delivered);
after an `errorf` the state is `nil` and the next `NextToken` call
restarts `lexGeneral`, so lexing continues behind error tokens.  The
fuel argument keeps the recursion structural; one unit per emission
cycle suffices, so any fuel above the input length is enough
(`lexRun_fuel`). -/
def lexRun : ℕ → List Char → ℕ → List Token
  | 0, _, _ => []
  | _ + 1, [], _ => [⟨.eofT, ""⟩]
  | fuel + 1, c :: cs, lvl =>
    if c == ')' then
      if 0 < lvl then ⟨.closeT, ")"⟩ :: lexRun fuel cs (lvl - 1)
      else ⟨.closeT, ")"⟩ :: ⟨.errT, "read-syntax: unexpected `)`"⟩ ::
        lexRun fuel cs lvl
    else if c == '(' then ⟨.openT, "("⟩ :: lexRun fuel cs (lvl + 1)
    else if isSpaceCh c then lexRun fuel cs lvl
    else if c == '"' then
      match strSplit cs with
      | some (lexeme, r') => ⟨.strT, String.mk lexeme⟩ :: lexRun fuel r' lvl
      | none => [⟨.errT, "expected a `\"` to close `\"`"⟩, ⟨.eofT, ""⟩]
    else if c == '\'' then ⟨.quoteT, "'"⟩ :: lexRun fuel cs lvl
    else if isNumStartCh c then
      if numIdentCont (numSplit c cs).2.2 then
        (identSplit (numSplit c cs).2.1 (numSplit c cs).2.2).1 ++
          lexRun fuel (identSplit (numSplit c cs).2.1 (numSplit c cs).2.2).2 lvl
      else if (c == '+' || c == '-') && (numSplit c cs).1 == 0 then
        ⟨.identT, String.mk (numSplit c cs).2.1⟩ ::
          lexRun fuel (numSplit c cs).2.2 lvl
      else
        ⟨.numberT, String.mk (numSplit c cs).2.1⟩ ::
          lexRun fuel (numSplit c cs).2.2 lvl
    else
      (identSplit [c] cs).1 ++ lexRun fuel (identSplit [c] cs).2 lvl

/-- The lexer semantics with the canonical fuel. -/
def lexW (l : List Char) (lvl : ℕ) : List Token := lexRun (l.length + 1) l lvl

/-- Tokens of a source string (a fresh lexer starts in `lexGeneral` at
bracket level 0). -/
def tokensOf (s : String) : List Token := lexW s.data 0

example : tokensOf "(+ 1 25)" =
    [⟨.openT, "("⟩, ⟨.identT, "+"⟩, ⟨.numberT, "1"⟩, ⟨.numberT, "25"⟩,
      ⟨.closeT, ")"⟩, ⟨.eofT, ""⟩] := by decide

example : tokensOf "'(a -1.5)" =
    [⟨.quoteT, "'"⟩, ⟨.openT, "("⟩, ⟨.identT, "a"⟩, ⟨.numberT, "-1.5"⟩,
      ⟨.closeT, ")"⟩, ⟨.eofT, ""⟩] := by decide

example : tokensOf "abc" =
    [⟨.errT, "expected a `)` to close `(`"⟩, ⟨.eofT, ""⟩] := by decide

/-! ## The parser (package `parser`, `Parser.next`) -/

/-- Value of a list of decimal digit characters. -/
def digitsVal (ds : List Char) : ℕ :=
  ds.foldl (fun acc c => acc * 10 + (c.toNat - 48)) 0

/-- Model of `strconv.ParseFloat(s, 64)` on the decimal lexeme shapes
this lexer can emit as `TokenNumber` (optional sign, digit run,
optional dot and digit run; at least one digit).  The value is exact in
`ℚ`; every number appearing in a theorem below is integral, where
`float64` parsing is also exact. -/
def parseFloat (s : String) : Option ℚ :=
  let signed : Option Bool := match s.data with
    | '+' :: _ => some false
    | '-' :: _ => some true
    | _ => none
  let r1 := if signed.isSome then s.data.tail else s.data
  let d1 := r1.takeWhile isDigitCh
  let sgn : ℚ := if signed = some true then -1 else 1
  match r1.dropWhile isDigitCh with
  | [] => if d1.isEmpty then none else some (sgn * (digitsVal d1 : ℚ))
  | '.' :: t =>
    if (t.dropWhile isDigitCh).isEmpty then
      if d1.isEmpty && (t.takeWhile isDigitCh).isEmpty then none
      else some (sgn * ((digitsVal d1 : ℚ) +
        (digitsVal (t.takeWhile isDigitCh) : ℚ) /
          (10 : ℚ) ^ (t.takeWhile isDigitCh).length))
    else none
  | _ => none

/-- List construction rules run when `Parser.next` consumes the closing
bracket of an `ExprList` (the empty-quoted-list, `(exit)` and
trailing-`NullSym` rules). -/
def finishList (q : ℕ) (l : List Expr) : Expr :=
  if l = [] ∧ q = 1 then nullSym
  else if q = 0 ∧ l = [Expr.var "exit"] then Expr.special .exitT
  else if 0 < q then Expr.lst (l ++ [nullSym]) q
  else Expr.lst l q

mutual

/-- The parser `next(qlevel)` on a token stream: returns the expression
(or `none` at end of stream), the error, and the unconsumed tokens.
The outer `none` means the fuel ran out. -/
def pnext : ℕ → ℕ → List Token → Option (Option Expr × Option String × List Token)
  | 0, _, _ => none
  | _ + 1, _, [] => some (none, none, [])
  | fuel + 1, q, t :: ts =>
    match t.typ with
    | .errT => some (some .voidE, some t.val, ts)
    | .eofT => some (none, none, ts)
    | .numberT =>
      match parseFloat t.val with
      | some v => some (some (.num v q), none, ts)
      | none =>
        some (some .voidE,
          some ("strconv.ParseFloat: parsing \"" ++ t.val ++
            "\": invalid syntax"), ts)
    | .identT =>
      if q = 0 then some (some (.var t.val), none, ts)
      else some (some (.sym t.val q), none, ts)
    | .strT => some (some (.sym t.val q), none, ts)
    | .openT => plist fuel q ts []
    | .closeT => some (some (.special .closeBracketT), none, ts)
    | .quoteT => pnext fuel (q + 1) ts
    | .skipT => pnext fuel q ts

/-- The child loop of the `TokenOpenBracket` case of `Parser.next`:
read children at the same `qlevel` until a stray close bracket, then
apply the list construction rules. -/
def plist : ℕ → ℕ → List Token → List Expr →
    Option (Option Expr × Option String × List Token)
  | 0, _, _, _ => none
  | fuel + 1, q, ts, acc =>
    match pnext fuel q ts with
    | none => none
    | some (inexpr, err, rest) =>
      match err with
      | some e => some (some .voidE, some e, rest)
      | none =>
        match inexpr with
        | some (.special .closeBracketT) =>
          some (some (finishList q acc), none, rest)
        | none =>
          some (some .voidE,
            some "read-syntax: expected a `)` to close `(`", rest)
        | some e => plist fuel q rest (acc ++ [e])

end

/-- Parse one top-level expression from a source string, with ample
fuel (two units per token suffice). -/
def parseNext (s : String) : Option (Option Expr × Option String × List Token) :=
  pnext (2 * (tokensOf s).length + 4) 0 (tokensOf s)

example : parseNext "(f '())" =
    some (some (.lst [.var "f", nullSym] 0), none, [⟨.eofT, ""⟩]) := by decide

example : parseNext "'5" = some (some (.num 5 1), none, [⟨.eofT, ""⟩]) := by
  decide

example : parseNext "(exit)" =
    some (some (.special .exitT), none, [⟨.eofT, ""⟩]) := by decide

example : parseNext "''(a b)" =
    some (some (.lst [.sym "a" 2, .sym "b" 2, nullSym] 2), none,
      [⟨.eofT, ""⟩]) := by decide

/-! ## The evaluator (package `interpreter`, the `(Expression, *Error)`
version) -/

/-- The `ErrorType` enumeration of `newError`. -/
inductive ErrT where
  | unknown | unboundIdentifier | missingProc | badSyntax | couldntEval
  | couldntLoadFile | notAProc | arityMismatch | contractViolation
  deriving DecidableEq, Repr

/-- The message built by `newError` (the `args...` parameter becomes a
list; `fmt.Sprintf` patterns become concatenation).  The two trailing
`expected:`/`given:` lines apply to every error type, as in the source.
The `notAProc` branch reproduces the source's `Sprintf` with a missing
argument (`%!s(MISSING)`). -/
def newError (typ : ErrT) (args : List String) : String :=
  let n := args.length
  let base : String :=
    match typ with
    | .unknown => "an unknown error occured"
    | .unboundIdentifier =>
      if 0 < n then args.getD 0 "" ++ ": unbound identifier"
      else "unbound identifier"
    | .missingProc =>
      "#%app: missing procedure expression;\n probably originally (), which is an illegal empty application"
    | .badSyntax =>
      if 1 ≤ n then args.getD 0 "" ++ ": bad syntax" else "bad syntax"
    | .couldntEval =>
      if 1 ≤ n then args.getD 0 "" ++ ": couldn't evaluate"
      else "couldn't evaluate"
    | .couldntLoadFile =>
      let s0 := "load: couldn't load file"
      let s1 := if 1 ≤ n then s0 ++ "\n " ++ args.getD 0 "" else s0
      if 2 ≤ n then s1 ++ "\n  " ++ args.getD 1 "" else s1
    | .notAProc =>
      if 1 ≤ n then args.getD 0 "" ++ "\n  given: %!s(MISSING)"
      else "application: not a procedure;\n expected a procedure that can be applied to arguments"
    | .arityMismatch =>
      let s0 := "arity mismatch;\n the expected number of arguments does not match the given number"
      if 1 ≤ n then args.getD 0 "" ++ ": " ++ s0 else s0
    | .contractViolation =>
      if 1 ≤ n then args.getD 0 "" ++ ": contract violation"
      else "contract violation"
  let s1 := if 2 ≤ n then base ++ "\n  expected: " ++ args.getD 1 "" else base
  if 3 ≤ n then s1 ++ "\n  given: " ++ args.getD 2 "" else s1

/-- Outcome of a Go evaluator function: a normal `(Expression, *Error)`
return, a runtime panic (which kills the host process), or the marker
for behaviour outside the embedded state (file input under `load`,
non-integral `math.Pow`; never reached in the theorems below). -/
inductive EvalRes where
  | ret (ex : Expr) (err : Option String)
  | panicked (msg : String)
  | unmodeled (what : String)
  deriving DecidableEq, Repr

/-- A `vars` map of an environment frame, as an association list; the
most recent binding for a name comes first, matching map overwrite
semantics under `frameFind`. -/
abbrev Frame := List (String × Expr)

/-- The environment chain: innermost frame first (each Go `environment`
holds a `vars` map and a `parent` pointer; with no closure capture and
no stored environments the chain in use is exactly a stack). -/
abbrev Env := List Frame

/-- Lookup in a single frame (Go map indexing). -/
def frameFind : Frame → String → Option Expr
  | [], _ => none
  | (k, v) :: r, s => if k = s then some v else frameFind r s

/-- The `find` method: local map first, then the parent chain; an
unbound name yields `(VoidExpr, unbound-identifier error)`. -/
def envFind : Env → String → Expr × Option String
  | [], s => (.voidE, some (newError .unboundIdentifier [s]))
  | f :: r, s =>
    match frameFind f s with
    | some v => (v, none)
    | none => envFind r s

/-- Map assignment `env.vars[ident] = ex` on the innermost frame. -/
def envBind : Env → String → Expr → Env
  | [], _, _ => []
  | f :: r, k, v => ((k, v) :: f) :: r

/-- The frame built by `makeEnvironment`: one binding per `Variable`
parameter, positionally paired with the evaluated arguments
(non-variable parameters are skipped with a debug print); callers
enforce equal lengths.  A later duplicate parameter overwrites an
earlier one, hence the recursive frame is consed in front. -/
def makeFrame : List Expr → List Expr → Frame
  | p :: ps, a :: rest =>
    match p with
    | .var s => makeFrame ps rest ++ [(s, a)]
    | _ => makeFrame ps rest
  | _, _ => []

/-- Go `int64(f)` conversion of a number value: truncation toward zero
(the out-of-range behaviour of the Go conversion is
implementation-defined and not modelled; the theorems below use small
values). -/
def goInt64 (v : ℚ) : ℤ := v.num.tdiv v.den

/-- Shared helper `isPair`: an `ExprList` of length at least 2. -/
def isPairE : Expr → Option (List Expr × ℕ)
  | .lst l q => if 2 ≤ l.length then some (l, q) else none
  | _ => none

/-- Loop of `procSubDiv` (note: the source's contract-violation message
inside the loop prints the first argument, not the offending one). -/
def subDivLoop (procName a0str : String) (isSub : Bool) (acc : ℚ) :
    List Expr → EvalRes
  | [] => .ret (.num acc 0) none
  | .num v _ :: rest =>
    subDivLoop procName a0str isSub (if isSub then acc - v else acc / v) rest
  | _ :: _ =>
    .ret .voidE (some (newError .contractViolation [procName, "number?", a0str]))

/-- The `-`/`/` built-in. -/
def procSubDiv (args : List Expr) (isSub : Bool) : EvalRes :=
  let procName := if isSub then "-" else "/"
  match args with
  | [] => .ret (.num (if isSub then 0 else 1) 0) none
  | a0 :: rest =>
    match a0 with
    | .num v _ =>
      if rest.isEmpty then .ret (.num (if isSub then -v else 1 / v) 0) none
      else subDivLoop procName (exprString a0 0) isSub v rest
    | _ =>
      .ret .voidE
        (some (newError .contractViolation [procName, "number?", exprString a0 0]))

/-- Loop of `procAddMult` (here the message prints the offending
element). -/
def addMultLoop (procName : String) (isAdd : Bool) (acc : ℚ) :
    List Expr → EvalRes
  | [] => .ret (.num acc 0) none
  | .num v _ :: rest =>
    addMultLoop procName isAdd (if isAdd then acc + v else acc * v) rest
  | e :: _ =>
    .ret .voidE
      (some (newError .contractViolation [procName, "number?", exprString e 0]))

/-- The `+`/`*` built-in. -/
def procAddMult (args : List Expr) (isAdd : Bool) : EvalRes :=
  addMultLoop (if isAdd then "+" else "*") isAdd (if isAdd then 0 else 1) args

/-- Loop of `procComp`: chained pairwise comparison, stopping at the
first failing pair. -/
def compLoop (comp : ℚ → ℚ → Bool) (last : ℚ) : List Expr → EvalRes
  | [] => .ret trueSym none
  | .num v _ :: rest =>
    if comp last v then compLoop comp v rest else .ret falseSym none
  | e :: _ =>
    .ret .voidE
      (some (newError .contractViolation
        ["<comparison>", "number?", exprString e 0]))

/-- The comparison built-ins (`=`, `<`, `<=`, `>`, `>=`). -/
def procComp (args : List Expr) (comp : ℚ → ℚ → Bool) : EvalRes :=
  match args with
  | [] => .ret trueSym none
  | a0 :: rest =>
    match a0 with
    | .num v _ => compLoop comp v rest
    | _ =>
      .ret .voidE
        (some (newError .contractViolation
          ["<comparison>", "number?", exprString a0 0]))

/-- The `number?` built-in. -/
def procIsNumber (args : List Expr) : EvalRes :=
  if args.length ≠ 1 then
    .ret .voidE
      (some (newError .arityMismatch ["number?", "1", natStr args.length]))
  else
    match args with
    | .num _ _ :: _ => .ret trueSym none
    | _ => .ret falseSym none

/-- The `null?` built-in. -/
def procIsNull (args : List Expr) : EvalRes :=
  if args.length ≠ 1 then
    .ret .voidE
      (some (newError .arityMismatch ["null?", "1", natStr args.length]))
  else if isNullSym (args.getD 0 .voidE) then .ret trueSym none
  else .ret falseSym none

/-- Loop of `procAnd`: `res` starts as `TrueSym`, each element replaces
it unless it is `#f`, in which case `#f` is returned at once. -/
def andLoop (res : Expr) : List Expr → EvalRes
  | [] => .ret res none
  | e :: rest => if isFalseSym e then .ret falseSym none else andLoop e rest

/-- The `and` built-in procedure (its arguments are already evaluated
by `evalProcLambda`). -/
def procAnd (args : List Expr) : EvalRes := andLoop trueSym args

/-- The `or` built-in procedure: first non-`#f` value, else `#f`. -/
def procOr : List Expr → EvalRes
  | [] => .ret falseSym none
  | e :: rest => if isFalseSym e then procOr rest else .ret e none

/-- The `remainder` built-in: truncate both operands to `int64`, then
Go `%`, which panics on a zero divisor. -/
def procRemainder (args : List Expr) : EvalRes :=
  match args with
  | [a, b] =>
    match a with
    | .num va _ =>
      match b with
      | .num vb _ =>
        if goInt64 vb = 0 then .panicked "runtime error: integer divide by zero"
        else .ret (.num (((goInt64 va).tmod (goInt64 vb) : ℤ) : ℚ) 0) none
      | _ =>
        .ret .voidE
          (some (newError .contractViolation
            ["remainder", "number?", exprString b 0]))
    | _ =>
      .ret .voidE
        (some (newError .contractViolation
          ["remainder", "number?", exprString a 0]))
  | _ =>
    .ret .voidE
      (some (newError .arityMismatch ["remainder", "2", natStr args.length]))

/-- The `quotient` built-in: truncate both operands to `int64`, then Go
integer division, which panics on a zero divisor. -/
def procQuotient (args : List Expr) : EvalRes :=
  match args with
  | [a, b] =>
    match a with
    | .num va _ =>
      match b with
      | .num vb _ =>
        if goInt64 vb = 0 then .panicked "runtime error: integer divide by zero"
        else .ret (.num (((goInt64 va).tdiv (goInt64 vb) : ℤ) : ℚ) 0) none
      | _ =>
        .ret .voidE
          (some (newError .contractViolation
            ["quotient", "number?", exprString b 0]))
    | _ =>
      .ret .voidE
        (some (newError .contractViolation
          ["quotient", "number?", exprString a 0]))
  | _ =>
    .ret .voidE
      (some (newError .arityMismatch ["quotient", "2", natStr args.length]))

/-- The `expt` built-in (`math.Pow`), modelled at integral exponents;
other exponents are outside the exact fragment. -/
def procExpt (args : List Expr) : EvalRes :=
  match args with
  | [a, b] =>
    match a with
    | .num va _ =>
      match b with
      | .num vb _ =>
        if vb.den = 1 ∧ 0 ≤ vb.num then .ret (.num (va ^ vb.num.toNat) 0) none
        else .unmodeled "expt: non-integral or negative exponent"
      | _ =>
        .ret .voidE
          (some (newError .contractViolation ["expt", "number?", exprString b 0]))
    | _ =>
      .ret .voidE
        (some (newError .contractViolation ["expt", "number?", exprString a 0]))
  | _ =>
    .ret .voidE
      (some (newError .arityMismatch ["expt", "2", natStr args.length]))

/-- The `list` built-in: no arguments yield the `NullSym` singleton;
otherwise the argument `ExprList` itself is returned with a trailing
`NullSym` appended (its `Qlevel` is whatever `evalProcLambda` built,
namely 0). -/
def procList (args : List Expr) (argsQ : ℕ) : EvalRes :=
  if args.isEmpty then .ret nullSym none
  else .ret (.lst (args ++ [nullSym]) argsQ) none

/-- The `cons` built-in. -/
def procCons (args : List Expr) : EvalRes :=
  match args with
  | [a, b] =>
    match b with
    | .lst bl bq =>
      if bq ≤ 1 then .ret (.lst (a :: bl) 1) none
      else .ret (.lst [a, b] 1) none
    | _ => .ret (.lst [a, b] 1) none
  | _ =>
    .ret .voidE
      (some (newError .arityMismatch ["cons", "2", natStr args.length]))

/-- The `car` built-in: the head of any `ExprList` (indexing an empty
one would panic); contract violation otherwise. -/
def procCar (args : List Expr) : EvalRes :=
  match args with
  | [a] =>
    match a with
    | .lst [] _ => .panicked "runtime error: index out of range"
    | .lst (x :: _) _ => .ret x none
    | _ =>
      .ret .voidE
        (some (newError .contractViolation ["car", "pair?", exprString a 0]))
  | _ =>
    .ret .voidE
      (some (newError .arityMismatch ["car", "1", natStr args.length]))

/-- The `cdr` built-in: pairs only; a 2-element list yields its second
element directly, longer lists the tail as an `ExprList` keeping the
`Qlevel`. -/
def procCdr (args : List Expr) : EvalRes :=
  match args with
  | [a] =>
    match isPairE a with
    | some (pl, pq) =>
      match pl with
      | [_, x] => .ret x none
      | _ :: rest => .ret (.lst rest pq) none
      | [] => .panicked "unreachable"
    | none =>
      .ret .voidE
        (some (newError .contractViolation ["cdr", "pair?", exprString a 0]))
  | _ =>
    .ret .voidE
      (some (newError .arityMismatch ["cdr", "1", natStr args.length]))

/-- The `list?` built-in: `NullSym`, or an `ExprList` that is empty or
ends in `NullSym`. -/
def procIsList (args : List Expr) : EvalRes :=
  match args with
  | [a] =>
    if isNullSym a then .ret trueSym none
    else
      match a with
      | .lst l _ =>
        match l.getLast? with
        | none => .ret trueSym none
        | some x => if isNullSym x then .ret trueSym none else .ret falseSym none
      | _ => .ret falseSym none
  | _ =>
    .ret .voidE
      (some (newError .arityMismatch ["list?", "1", natStr args.length]))

/-- The `pair?` built-in. -/
def procIsPair (args : List Expr) : EvalRes :=
  match args with
  | [a] =>
    match isPairE a with
    | some _ => .ret trueSym none
    | none => .ret falseSym none
  | _ =>
    .ret .voidE
      (some (newError .arityMismatch ["pair?", "1", natStr args.length]))

/-- Loop of `minMax`: tracks the extreme argument expressions
themselves (the source returns the argument `*Number`, keeping its
quote level). -/
def minMaxLoop (mn mx : ℚ) (mnE mxE : Expr) :
    List Expr → Except String (Expr × Expr)
  | [] => .ok (mnE, mxE)
  | .num v q :: rest =>
    minMaxLoop (if v < mn then v else mn) (if mx < v then v else mx)
      (if v < mn then .num v q else mnE) (if mx < v then .num v q else mxE) rest
  | e :: _ =>
    .error (newError .contractViolation ["min/max", "number?", exprString e 0])

/-- Shared helper of `min`/`max`. -/
def minMax (args : List Expr) : Except String (Expr × Expr) :=
  match args with
  | [] => .error (newError .arityMismatch ["min/max", "1", natStr 0])
  | a0 :: rest =>
    match a0 with
    | .num v _ => minMaxLoop v v a0 a0 rest
    | _ =>
      .error (newError .contractViolation ["min/max", "number?", exprString a0 0])

/-- The `max` built-in. -/
def procMax (args : List Expr) : EvalRes :=
  match minMax args with
  | .error e => .ret .voidE (some e)
  | .ok (_, mx) => .ret mx none

/-- The `min` built-in. -/
def procMin (args : List Expr) : EvalRes :=
  match minMax args with
  | .error e => .ret .voidE (some e)
  | .ok (mn, _) => .ret mn none

/-- Dispatch a built-in `Procedure` on the evaluated argument list
(`argsQ` is the `Qlevel` of the argument `ExprList`; `evalProcLambda`
always builds it as 0). -/
def applyPrim (p : Prim) (args : List Expr) (argsQ : ℕ) : EvalRes :=
  match p with
  | .add => procAddMult args true
  | .mul => procAddMult args false
  | .sub => procSubDiv args true
  | .div => procSubDiv args false
  | .eq => procComp args (fun a b => a == b)
  | .lt => procComp args (fun a b => a < b)
  | .le => procComp args (fun a b => a ≤ b)
  | .gt => procComp args (fun a b => b < a)
  | .ge => procComp args (fun a b => b ≤ a)
  | .isNumber => procIsNumber args
  | .isNull => procIsNull args
  | .andP => procAnd args
  | .orP => procOr args
  | .remainder => procRemainder args
  | .quotient => procQuotient args
  | .expt => procExpt args
  | .listP => procList args argsQ
  | .consP => procCons args
  | .carP => procCar args
  | .cdrP => procCdr args
  | .isPair => procIsPair args
  | .isList => procIsList args
  | .maxP => procMax args
  | .minP => procMin args

/-- The `load` special form: the arity check is faithful; an actual
file read is outside the embedded state (`unmodeled`); a non-variable
argument falls through to `(VoidExpr, nil)`. -/
def evalLoad (env : Env) (l : List Expr) : Env × EvalRes :=
  if l.length ≠ 2 then
    (env, .ret .voidE
      (some (newError .badSyntax ["load", "1 argument", natStr (l.length - 1)])))
  else
    match l with
    | [_, .var fname] => (env, .unmodeled ("load: file io " ++ fname))
    | _ => (env, .ret .voidE none)

mutual

/-- The evaluator dispatch (`environment.eval`).  The environment chain
is threaded in and out, since `define` mutates the innermost frame.
Evaluating a `*Procedure` panics (`unreachable`); a quoted list
self-evaluates; an empty call is the missing-procedure error; a
one-element list holding `NullSym` hits the `shouldn't happen` panic;
a head `Variable` named `define`/`if`/`load`/`cond` dispatches to the
special form; everything else is a procedure or lambda call.  Variants
without a case (`Lambda`, `VoidExpr`, `SpecialExpr`) fall to the
default: `(VoidExpr, unknown error)`. -/
def eval : ℕ → Env → Expr → Option (Env × EvalRes)
  | 0, _, _ => none
  | fuel + 1, env, e =>
    match e with
    | .var s => some (env, .ret (envFind env s).1 (envFind env s).2)
    | .sym v q => some (env, .ret (.sym v q) none)
    | .num v q => some (env, .ret (.num v q) none)
    | .proc _ => some (env, .panicked "unreachable")
    | .lst l ql =>
      if 0 < ql then some (env, .ret (.lst l ql) none)
      else
        match l with
        | [] => some (env, .ret .voidE (some (newError .missingProc [])))
        | x :: rest =>
          if rest.isEmpty ∧ isNullSym x then
            some (env, .panicked "shouldn't happen")
          else
            match x with
            | .var v =>
              if v = "define" then evalDefine fuel env l
              else if v = "if" then evalIf fuel env l
              else if v = "load" then some (evalLoad env l)
              else if v = "cond" then evalCondClauses fuel env (l.drop 1)
              else evalProcLambda fuel env l
            | _ => evalProcLambda fuel env l
    | _ => some (env, .ret .voidE (some (newError .unknown [])))

/-- The `define` special form.  In the variable branch the source
captures the error of evaluating the right-hand side but then binds the
returned expression anyway and returns `(ex, nil)`, discarding the
error. -/
def evalDefine : ℕ → Env → List Expr → Option (Env × EvalRes)
  | 0, _, _ => none
  | fuel + 1, env, l =>
    if l.length < 3 then
      some (env, .ret .voidE
        (some (newError .badSyntax
          ["define", "at least 2 arguments", natStr (l.length - 1)])))
    else if 3 < l.length ∧ (match l.getD 1 .voidE with
        | .lst _ _ => false
        | _ => true) = true then
      some (env, .ret .voidE
        (some (newError .badSyntax
          ["define", "exactly one expression after identifier"])))
    else
      match l with
      | _ :: firstArg :: e2 :: rest3 =>
        match firstArg with
        | .lst fl _ =>
          match fl with
          | [] => some (env, .panicked "runtime error: index out of range")
          | f0 :: params =>
            match f0 with
            | .var name =>
              some (envBind env name (.lam name params (e2 :: rest3)),
                .ret (.lam name params (e2 :: rest3)) none)
            | _ =>
              some (env, .ret .voidE
                (some (newError .badSyntax
                  ["define", "identifier", exprString f0 0])))
        | .var name =>
          match eval fuel env e2 with
          | none => none
          | some (env', .ret ex _) =>
            some (envBind env' name ex, .ret ex none)
          | some (env', r) => some (env', r)
        | _ =>
          some (env, .ret .voidE
            (some (newError .badSyntax
              ["define", "identifier or list", exprString firstArg 0])))
      | _ => some (env, .panicked "unreachable")

/-- The `if` special form. -/
def evalIf : ℕ → Env → List Expr → Option (Env × EvalRes)
  | 0, _, _ => none
  | fuel + 1, env, l =>
    if l.length < 3 ∨ 4 < l.length then
      some (env, .ret .voidE
        (some (newError .badSyntax
          ["if", "2 or 3 arguments", natStr (l.length - 1)])))
    else
      match l with
      | _ :: c :: thenE :: restIf =>
        match eval fuel env c with
        | none => none
        | some (env', .ret cv cerr) =>
          match cerr with
          | some er => some (env', .ret .voidE (some er))
          | none =>
            if isFalseSym cv then
              match restIf with
              | [elseE] => eval fuel env' elseE
              | _ => some (env', .ret .voidE none)
            else eval fuel env' thenE
        | some (env', r) => some (env', r)
      | _ => some (env, .panicked "unreachable")

/-- The clause loop of `evalCond` (on `lst.Lst[1:]`): each clause must
be a pair; a `Variable` named `else` in test position is true; the
first clause whose test does not evaluate to `#f` has its result
expressions run by `evalSeq`. -/
def evalCondClauses : ℕ → Env → List Expr → Option (Env × EvalRes)
  | 0, _, _ => none
  | _ + 1, env, [] => some (env, .ret .voidE none)
  | fuel + 1, env, cl :: rest =>
    match isPairE cl with
    | none =>
      some (env, .ret .voidE
        (some (newError .badSyntax
          ["cond", "pair? as a test clause", exprString cl 0])))
    | some (cll, _) =>
      match cll with
      | test :: resClauses =>
        if (match test with | .var v => v == "else" | _ => false) = true then
          evalSeq fuel env .voidE resClauses
        else
          match eval fuel env test with
          | none => none
          | some (env', .ret cv cerr) =>
            match cerr with
            | some er => some (env', .ret .voidE (some er))
            | none =>
              if isFalseSym cv then evalCondClauses fuel env' rest
              else evalSeq fuel env' .voidE resClauses
          | some (env', r) => some (env', r)
      | [] => some (env, .panicked "unreachable")

/-- The result loop inside a true `cond` clause: run the expressions in
order, any error short-circuits to `(VoidExpr, err)`, the last value is
returned (`VoidExpr` when the clause has no result expressions — the
accumulator starts as `&p.VoidExpr`). -/
def evalSeq : ℕ → Env → Expr → List Expr → Option (Env × EvalRes)
  | 0, _, _, _ => none
  | _ + 1, env, res, [] => some (env, .ret res none)
  | fuel + 1, env, _, e :: rest =>
    match eval fuel env e with
    | none => none
    | some (env', .ret v verr) =>
      match verr with
      | some er => some (env', .ret .voidE (some er))
      | none => evalSeq fuel env' v rest
    | some (env', r) => some (env', r)

/-- Procedure or lambda application: evaluate the head; a non-procedure
head is the not-a-procedure error; evaluate the arguments left to right
into a fresh `ExprList` (whose `Qlevel` is 0); built-ins are invoked on
it; a lambda checks exact arity, builds a child frame on top of the
current environment (the source stores no environment on the `Lambda`,
so the parent is the call-site chain) and runs the body. -/
def evalProcLambda : ℕ → Env → List Expr → Option (Env × EvalRes)
  | 0, _, _ => none
  | fuel + 1, env, l =>
    match l with
    | hd :: argsE =>
      match eval fuel env hd with
      | none => none
      | some (env1, .ret pr prErr) =>
        match prErr with
        | some er => some (env1, .ret .voidE (some er))
        | none =>
          match pr with
          | .proc p =>
            match evalArgs fuel env1 argsE with
            | none => none
            | some (env2, .inr r) => some (env2, r)
            | some (env2, .inl vals) => some (env2, applyPrim p vals 0)
          | .lam name params body =>
            match evalArgs fuel env1 argsE with
            | none => none
            | some (env2, .inr r) => some (env2, r)
            | some (env2, .inl vals) =>
              if params.length ≠ vals.length then
                some (env2, .ret .voidE
                  (some (newError .arityMismatch
                    [name, natStr params.length, natStr vals.length])))
              else
                match evalBody fuel (makeFrame params vals :: env2) body with
                | none => none
                | some (lamEnv', r) => some (lamEnv'.tail, r)
          | _ => some (env1, .ret .voidE (some (newError .notAProc [exprString pr 0])))
      | some (env1, r) => some (env1, r)
    | [] => some (env, .panicked "unreachable")

/-- The argument loop of `evalProcLambda`: left-to-right evaluation; an
erroring argument aborts with `(VoidExpr, err)`. -/
def evalArgs : ℕ → Env → List Expr →
    Option (Env × (List Expr ⊕ EvalRes))
  | 0, _, _ => none
  | _ + 1, env, [] => some (env, .inl [])
  | fuel + 1, env, a :: rest =>
    match eval fuel env a with
    | none => none
    | some (env', .ret v verr) =>
      match verr with
      | some er => some (env', .inr (.ret .voidE (some er)))
      | none =>
        match evalArgs fuel env' rest with
        | none => none
        | some (env2, .inl vs) => some (env2, .inl (v :: vs))
        | some (env2, .inr r) => some (env2, .inr r)
    | some (env', r) => some (env', .inr r)

/-- The body loop of a lambda call: the `(ex, err)` of the last
evaluated body expression is returned; an error breaks the loop and is
returned together with the expression the failing step returned.
(Lambda bodies produced by `define` are never empty.) -/
def evalBody : ℕ → Env → List Expr → Option (Env × EvalRes)
  | 0, _, _ => none
  | _ + 1, env, [] => some (env, .ret .voidE none)
  | fuel + 1, env, [e] => eval fuel env e
  | fuel + 1, env, e :: rest =>
    match eval fuel env e with
    | none => none
    | some (env', .ret ex (some er)) => some (env', .ret ex (some er))
    | some (env', .ret _ none) => evalBody fuel env' rest
    | some (env', r) => some (env', r)

end

/-- The `vars` map installed by `addDefaultDefs` on the global
environment. -/
def defaultFrame : Frame :=
  [("#f", falseSym), ("#t", trueSym),
   ("+", .proc .add), ("*", .proc .mul), ("-", .proc .sub), ("/", .proc .div),
   ("=", .proc .eq), ("<", .proc .lt), ("<=", .proc .le),
   (">", .proc .gt), (">=", .proc .ge),
   ("number?", .proc .isNumber), ("null?", .proc .isNull),
   ("and", .proc .andP), ("or", .proc .orP),
   ("remainder", .proc .remainder), ("quotient", .proc .quotient),
   ("expt", .proc .expt),
   ("list", .proc .listP), ("cons", .proc .consP),
   ("car", .proc .carP), ("cdr", .proc .cdrP),
   ("pair?", .proc .isPair), ("list?", .proc .isList),
   ("max", .proc .maxP), ("min", .proc .minP)]

/-- A fresh interpreter's environment chain: just the global frame. -/
def initialEnv : Env := [defaultFrame]

/-- The `Status` values of `Interpret`. -/
inductive Status where
  | ok | exitted | error
  deriving DecidableEq, Repr

/-- Result of an `Interpret` run: a status, or the marker that a Go
panic (or unmodelled io) tore the loop down. -/
inductive InterpOut where
  | status (s : Status)
  | panicked (msg : String)
  | unmodeled (what : String)
  deriving DecidableEq, Repr

/-- The `Interpret` loop: parse a top-level expression; stop with `Ok`
at end of input; `(exit)` prints a goodbye line and stops with
`Exitted`; otherwise evaluate unless the parser reported an error, and
print either the error message or the value (`println`ed lines are
accumulated in order). -/
def interpretLoop : ℕ → Env → List Token → List String →
    Option (List String × InterpOut × Env)
  | 0, _, _, _ => none
  | fuel + 1, env, toks, out =>
    match pnext fuel 0 toks with
    | none => none
    | some (oexpr, perr, rest) =>
      match oexpr with
      | none => some (out.reverse, .status .ok, env)
      | some ex =>
        if isSpecialExit ex then
          some (("Got (exit), bye!" :: out).reverse, .status .exitted, env)
        else
          match perr with
          | some er => interpretLoop fuel env rest (er :: out)
          | none =>
            match eval fuel env ex with
            | none => none
            | some (env', .ret v verr) =>
              match verr with
              | some er => interpretLoop fuel env' rest (er :: out)
              | none => interpretLoop fuel env' rest (exprString v 0 :: out)
            | some (env', .panicked m) => some (out.reverse, .panicked m, env')
            | some (env', .unmodeled m) => some (out.reverse, .unmodeled m, env')

/-- Run `Interpret` on a source string with the given fuel, returning
the printed lines and the outcome. -/
def interpret (fuel : ℕ) (input : String) : Option (List String × InterpOut) :=
  match interpretLoop fuel initialEnv (tokensOf input) [] with
  | none => none
  | some (out, r, _) => some (out, r)

example : interpret 64 "(+ 1 2 3)" = some (["6"], .status .ok) := by decide

example : interpret 64 "(exit)" =
    some (["Got (exit), bye!"], .status .exitted) := by decide

example : interpret 64 "(define (sq x) (* x x)) (sq 9)" =
    some (["#<lambda sq>", "81"], .status .ok) := by decide

example : interpret 64 "(if (< 3 2) 10 (if (= 2 2) 20 30))" =
    some (["20"], .status .ok) := by decide

example : interpret 64 "(cdr (cons 1 (list 2 3)))" =
    some (["'(2 3)"], .status .ok) := by decide

example : interpret 64 "(car 5)" =
    some (["car: contract violation\n  expected: pair?\n  given: 5"],
      .status .ok) := by decide

/-! ## Helper lemmas for the claim theorems -/

theorem andLoop_first_false :
    ∀ (pre : List Expr) (res : Expr) (post : List Expr),
      (∀ x ∈ pre, isFalseSym x = false) →
      andLoop res (pre ++ falseSym :: post) = .ret falseSym none
  | [], res, post, _ => by simp [andLoop, isFalseSym, falseSym]
  | p :: ps, res, post, h => by
    have hp : isFalseSym p = false := h p (by simp)
    simp only [List.cons_append, andLoop, hp, Bool.false_eq_true, if_false]
    exact andLoop_first_false ps p post (fun x hx => h x (by simp [hx]))

theorem andLoop_no_false :
    ∀ (l : List Expr) (res : Expr), (∀ x ∈ l, isFalseSym x = false) →
      andLoop res l = .ret (l.getLastD res) none
  | [], res, _ => by simp [andLoop]
  | x :: xs, res, h => by
    have hx : isFalseSym x = false := h x (by simp)
    simp only [andLoop, hx, Bool.false_eq_true, if_false, List.getLastD_cons]
    exact andLoop_no_false xs x (fun y hy => h y (by simp [hy]))

theorem procOr_first_true :
    ∀ (pre : List Expr) (x : Expr) (post : List Expr),
      (∀ y ∈ pre, isFalseSym y = true) → isFalseSym x = false →
      procOr (pre ++ x :: post) = .ret x none
  | [], x, post, _, hx => by simp [procOr, hx]
  | p :: ps, x, post, h, hx => by
    have hp : isFalseSym p = true := h p (by simp)
    simp only [List.cons_append, procOr, hp, if_true]
    exact procOr_first_true ps x post (fun y hy => h y (by simp [hy])) hx

theorem procOr_all_false :
    ∀ l : List Expr, (∀ y ∈ l, isFalseSym y = true) →
      procOr l = .ret falseSym none
  | [], _ => by simp [procOr]
  | x :: xs, h => by
    have hx : isFalseSym x = true := h x (by simp)
    simp only [procOr, hx, if_true]
    exact procOr_all_false xs (fun y hy => h y (by simp [hy]))

mutual

/-- The deep trailing-`NullSym` invariant: every `ExprList` in the tree
with `qlevel ≥ 1` is nonempty and ends in `NullSym`. -/
def qlistsTerminated : Expr → Bool
  | .lst l q =>
    (decide (q = 0) || (!l.isEmpty && isNullSym (l.getLastD .voidE))) &&
      qlistsAll l
  | _ => true

/-- The invariant over all elements of a list. -/
def qlistsAll : List Expr → Bool
  | [] => true
  | x :: xs => qlistsTerminated x && qlistsAll xs

end

theorem qlistsAll_iff :
    ∀ l : List Expr, qlistsAll l = true ↔ ∀ a ∈ l, qlistsTerminated a = true
  | [] => by simp [qlistsAll]
  | x :: xs => by simp [qlistsAll, qlistsAll_iff xs]

theorem finishList_terminated (q : ℕ) (acc : List Expr)
    (h : ∀ a ∈ acc, qlistsTerminated a = true) :
    qlistsTerminated (finishList q acc) = true := by
  unfold finishList
  split
  · decide
  · split
    · decide
    · split
      · next hq =>
        simp only [qlistsTerminated, Bool.and_eq_true, Bool.or_eq_true,
          decide_eq_true_eq, Bool.not_eq_true', qlistsAll_iff]
        refine ⟨?_, ?_⟩
        · right
          constructor
          · simp [List.isEmpty_iff]
          · rw [List.getLastD_concat]
            decide
        · intro a ha
          rcases List.mem_append.mp ha with ha | ha
          · exact h a ha
          · simp only [List.mem_singleton] at ha
            subst ha
            decide
      · next hq =>
        have hq0 : q = 0 := by omega
        subst hq0
        simp only [qlistsTerminated, Bool.and_eq_true, Bool.or_eq_true,
          decide_eq_true_eq, qlistsAll_iff]
        exact ⟨by simp, h⟩

theorem parse_qlists_terminated :
    ∀ fuel : ℕ,
      (∀ q toks e err rest, pnext fuel q toks = some (some e, err, rest) →
        qlistsTerminated e = true) ∧
      (∀ q toks acc e err rest, (∀ a ∈ acc, qlistsTerminated a = true) →
        plist fuel q toks acc = some (some e, err, rest) →
        qlistsTerminated e = true) := by
  intro fuel
  induction fuel with
  | zero =>
    constructor
    · intro q toks e err rest h
      simp [pnext] at h
    · intro q toks acc e err rest _ h
      simp [plist] at h
  | succ f ih =>
    constructor
    · intro q toks e err rest h
      match toks with
      | [] => simp [pnext] at h
      | t :: ts =>
        obtain ⟨typ, val⟩ := t
        cases typ <;> simp only [pnext] at h
        · simp only [Option.some.injEq, Prod.mk.injEq] at h
          obtain ⟨he, -, -⟩ := h
          subst he
          rfl
        · simp at h
        · split at h <;>
            (simp only [Option.some.injEq, Prod.mk.injEq] at h
             obtain ⟨he, -, -⟩ := h
             subst he
             rfl)
        · split at h <;>
            (simp only [Option.some.injEq, Prod.mk.injEq] at h
             obtain ⟨he, -, -⟩ := h
             subst he
             rfl)
        · simp only [Option.some.injEq, Prod.mk.injEq] at h
          obtain ⟨he, -, -⟩ := h
          subst he
          rfl
        · exact ih.2 q ts [] e err rest (by simp) h
        · simp only [Option.some.injEq, Prod.mk.injEq] at h
          obtain ⟨he, -, -⟩ := h
          subst he
          rfl
        · exact ih.1 (q + 1) ts e err rest h
        · exact ih.1 q ts e err rest h
    · intro q toks acc e err rest hacc h
      simp only [plist] at h
      rcases hp : pnext f q toks with _ | ⟨inexpr, perr, rest'⟩ <;> rw [hp] at h
      · simp at h
      · rcases perr with _ | er
        · rcases inexpr with _ | ie
          · simp only [Option.some.injEq, Prod.mk.injEq] at h
            obtain ⟨he, -, -⟩ := h
            subst he
            rfl
          · have hstep : ∀ x : Expr, x ≠ Expr.special .closeBracketT →
                plist f q rest' (acc ++ [x]) = some (some e, err, rest) →
                pnext f q toks = some (some x, none, rest') →
                qlistsTerminated e = true := by
              intro x _ hrec hx
              refine ih.2 q rest' (acc ++ [x]) e err rest ?_ hrec
              intro a ha
              rcases List.mem_append.mp ha with ha' | ha'
              · exact hacc a ha'
              · simp only [List.mem_singleton] at ha'
                subst ha'
                exact ih.1 q toks a none rest' hx
            cases ie with
            | special st =>
              cases st with
              | closeBracketT =>
                simp only [Option.some.injEq, Prod.mk.injEq] at h
                obtain ⟨he, -, -⟩ := h
                subst he
                exact finishList_terminated q acc hacc
              | exitT => exact hstep _ (by simp) h hp
            | num v vq => exact hstep _ (by simp) h hp
            | var s => exact hstep _ (by simp) h hp
            | lst l lq => exact hstep _ (by simp) h hp
            | proc p => exact hstep _ (by simp) h hp
            | lam n ps bd => exact hstep _ (by simp) h hp
            | sym s sq => exact hstep _ (by simp) h hp
            | voidE => exact hstep _ (by simp) h hp
        · simp only [Option.some.injEq, Prod.mk.injEq] at h
          obtain ⟨he, -, -⟩ := h
          subst he
          rfl

theorem pnext_plist_mono : ∀ fuel : ℕ,
    (∀ q toks r, pnext fuel q toks = some r → pnext (fuel + 1) q toks = some r) ∧
    (∀ q toks acc r, plist fuel q toks acc = some r →
      plist (fuel + 1) q toks acc = some r) := by
  intro fuel
  induction fuel with
  | zero =>
    constructor
    · intro q toks r h
      simp [pnext] at h
    · intro q toks acc r h
      simp [plist] at h
  | succ f ih =>
    constructor
    · intro q toks r h
      match toks with
      | [] => exact h
      | t :: ts =>
        obtain ⟨typ, val⟩ := t
        cases typ <;> simp only [pnext] at h ⊢
        · exact h
        · exact h
        · exact h
        · exact h
        · exact h
        · exact ih.2 _ _ _ _ h
        · exact h
        · exact ih.1 _ _ _ h
        · exact ih.1 _ _ _ h
    · intro q toks acc r h
      simp only [plist] at h ⊢
      rcases hp : pnext f q toks with _ | ⟨inexpr, perr, rest'⟩
      · rw [hp] at h
        simp at h
      · rw [hp] at h
        rw [ih.1 _ _ _ hp]
        rcases perr with _ | er
        · rcases inexpr with _ | ie
          · exact h
          · cases ie with
            | special st =>
              cases st with
              | closeBracketT => exact h
              | exitT => exact ih.2 _ _ _ _ h
            | num v vq => exact ih.2 _ _ _ _ h
            | var s => exact ih.2 _ _ _ _ h
            | lst l lq => exact ih.2 _ _ _ _ h
            | proc p => exact ih.2 _ _ _ _ h
            | lam n ps bd => exact ih.2 _ _ _ _ h
            | sym s sq => exact ih.2 _ _ _ _ h
            | voidE => exact ih.2 _ _ _ _ h
        · exact h

theorem pnext_mono_le : ∀ {f g : ℕ}, f ≤ g → ∀ {q toks r},
    pnext f q toks = some r → pnext g q toks = some r := by
  intro f g hfg
  induction g with
  | zero =>
    intro q toks r h
    obtain rfl : f = 0 := by omega
    exact h
  | succ g ihg =>
    intro q toks r h
    rcases Nat.lt_or_ge f (g + 1) with hlt | hge
    · exact (pnext_plist_mono g).1 _ _ _ (ihg (by omega) h)
    · obtain rfl : f = g + 1 := by omega
      exact h

theorem lexRun_irrel : ∀ (n : ℕ) (l : List Char) (lvl f₁ f₂ : ℕ),
    l.length ≤ n → l.length < f₁ → l.length < f₂ →
    lexRun f₁ l lvl = lexRun f₂ l lvl := by
  intro n
  induction n with
  | zero =>
    intro l lvl f₁ f₂ hn h1 h2
    obtain rfl : l = [] := List.length_eq_zero.mp (Nat.le_zero.mp hn)
    obtain ⟨a, rfl⟩ : ∃ a, f₁ = a + 1 := ⟨f₁ - 1, by omega⟩
    obtain ⟨b, rfl⟩ : ∃ b, f₂ = b + 1 := ⟨f₂ - 1, by omega⟩
    rfl
  | succ n ih =>
    intro l lvl f₁ f₂ hn h1 h2
    match l with
    | [] =>
      obtain ⟨a, rfl⟩ : ∃ a, f₁ = a + 1 := ⟨f₁ - 1, by omega⟩
      obtain ⟨b, rfl⟩ : ∃ b, f₂ = b + 1 := ⟨f₂ - 1, by omega⟩
      rfl
    | c :: cs =>
      obtain ⟨a, rfl⟩ : ∃ a, f₁ = a + 1 := ⟨f₁ - 1, by omega⟩
      obtain ⟨b, rfl⟩ : ∃ b, f₂ = b + 1 := ⟨f₂ - 1, by omega⟩
      simp only [List.length_cons] at hn h1 h2
      have hcs : cs.length ≤ n := by omega
      have ha : cs.length < a := by omega
      have hb : cs.length < b := by omega
      simp only [lexRun]
      by_cases hcl : (c == ')') = true
      · rw [if_pos hcl, if_pos hcl]
        by_cases hlv : 0 < lvl
        · rw [if_pos hlv, if_pos hlv, ih cs (lvl - 1) a b hcs ha hb]
        · rw [if_neg hlv, if_neg hlv, ih cs lvl a b hcs ha hb]
      · rw [if_neg hcl, if_neg hcl]
        by_cases hop : (c == '(') = true
        · rw [if_pos hop, if_pos hop, ih cs (lvl + 1) a b hcs ha hb]
        · rw [if_neg hop, if_neg hop]
          by_cases hsp : isSpaceCh c = true
          · rw [if_pos hsp, if_pos hsp, ih cs lvl a b hcs ha hb]
          · rw [if_neg hsp, if_neg hsp]
            by_cases hq : (c == '"') = true
            · rw [if_pos hq, if_pos hq]
              rcases hs : strSplit cs with _ | ⟨lexeme, r'⟩
              · rfl
              · have hr' : r'.length < cs.length + 1 :=
                  strSplit_rest_le cs lexeme r' hs
                simp only [ih r' lvl a b (by omega) (by omega) (by omega)]
            · rw [if_neg hq, if_neg hq]
              by_cases hqq : (c == '\'') = true
              · rw [if_pos hqq, if_pos hqq, ih cs lvl a b hcs ha hb]
              · rw [if_neg hqq, if_neg hqq]
                by_cases hns : isNumStartCh c = true
                · rw [if_pos hns, if_pos hns]
                  have hnum := numSplit_rest_le c cs hns
                  by_cases hic : numIdentCont (numSplit c cs).2.2 = true
                  · rw [if_pos hic, if_pos hic]
                    have hid := identSplit_rest_le (numSplit c cs).2.1
                      (numSplit c cs).2.2
                    rw [ih (identSplit (numSplit c cs).2.1 (numSplit c cs).2.2).2
                      lvl a b (by omega) (by omega) (by omega)]
                  · rw [if_neg hic, if_neg hic]
                    by_cases hsg : ((c == '+' || c == '-') &&
                        (numSplit c cs).1 == 0) = true
                    · rw [if_pos hsg, if_pos hsg,
                        ih (numSplit c cs).2.2 lvl a b (by omega) (by omega)
                          (by omega)]
                    · rw [if_neg hsg, if_neg hsg,
                        ih (numSplit c cs).2.2 lvl a b (by omega) (by omega)
                          (by omega)]
                · rw [if_neg hns, if_neg hns]
                  have hid := identSplit_rest_le [c] cs
                  rw [ih (identSplit [c] cs).2 lvl a b (by omega) (by omega)
                    (by omega)]

/-- The canonical-fuel lexer agrees with any sufficiently fuelled run. -/
theorem lexRun_eq_lexW (f : ℕ) (l : List Char) (lvl : ℕ)
    (h : l.length < f) : lexRun f l lvl = lexW l lvl :=
  lexRun_irrel l.length l lvl f (l.length + 1) le_rfl h (by omega)

theorem eval_var_call (g : ℕ) (env : Env) (v : String) (args : List Expr)
    (h1 : v ≠ "define") (h2 : v ≠ "if") (h3 : v ≠ "load") (h4 : v ≠ "cond") :
    eval (g + 1) env (.lst (.var v :: args) 0) =
      evalProcLambda g env (.var v :: args) := by
  cases args with
  | nil => simp [eval, h1, h2, h3, h4, isNullSym]
  | cons a as => simp [eval, h1, h2, h3, h4, isNullSym]

/-! ## Round-trip infrastructure (claim C6)

The printer is lossy in several ways (a `Number` suppresses one quote
level, a `Symbol` whose name starts with `#` suppresses one, nested
extra quoting inside lists is dropped, and a call list prints its last
element in dot notation), so structural round-tripping holds only on a
restricted grammar: identifiers over a safe alphabet, integral numbers,
uniformly quoted lists.  The definitions below carve out that grammar
and prove print-then-re-read exact on it. -/

/-- Characters that terminate an identifier (and the printed forms
used below): space, a closing bracket, or the newline that ends a REPL
line. -/
def delimCh (c : Char) : Bool := c == ' ' || c == ')' || c == '\n'

/-- The rest of the input starts with a delimiter. -/
def delimHead : List Char → Prop
  | d :: _ => delimCh d = true
  | [] => False

/-- A safe first character for a printed identifier: one the lexer's
`lexGeneral` sends straight to the identifier state (and that does not
trigger the printer's `#` quote suppression). -/
def firstOkB (c : Char) : Bool :=
  identCh c && !(c == '(') && !(c == '"') && !(c == '\'') &&
    !isNumStartCh c && !(c == '#')

/-- A safe identifier for round-tripping. -/
def identOkB (s : String) : Bool :=
  match s.data with
  | [] => false
  | c :: cs => firstOkB c && cs.all identCh

/-- Children of a quoted list of quote level `L` that survive the
round trip: symbols and numbers stamped with the same `L`, the
`NullSym` singleton (at `L = 1`), and nested lists at the same `L`. -/
inductive RTChild : ℕ → Expr → Prop where
  | symC (s : String) (L : ℕ) (hs : identOkB s = true) (hL : 1 ≤ L) :
      RTChild L (.sym s L)
  | numC (v : ℚ) (L : ℕ) (hv : v.den = 1) : RTChild L (.num v L)
  | nullC : RTChild 1 nullSym
  | lstC (elems : List Expr) (L : ℕ) (h : ∀ e ∈ elems, RTChild L e)
      (hL : 1 ≤ L) (hne : elems ≠ [] ∨ 2 ≤ L) :
      RTChild L (.lst (elems ++ [nullSym]) L)

/-- Top-level expressions that survive the round trip: variables,
plain integral numbers, the `NullSym` singleton, quoted symbols,
uniformly quoted lists, and the empty call list. -/
inductive RTTop : Expr → Prop where
  | varT (s : String) (hs : identOkB s = true) : RTTop (.var s)
  | numT (v : ℚ) (hv : v.den = 1) : RTTop (.num v 0)
  | nullT : RTTop nullSym
  | symT (s : String) (q : ℕ) (hs : identOkB s = true) (hq : 1 ≤ q) :
      RTTop (.sym s q)
  | lstT (elems : List Expr) (L : ℕ) (h : ∀ e ∈ elems, RTChild L e)
      (hL : 1 ≤ L) (hne : elems ≠ [] ∨ 2 ≤ L) :
      RTTop (.lst (elems ++ [nullSym]) L)
  | emptyCallT : RTTop (.lst [] 0)

/-- The space-separated join of printed list elements (what
`elemsString` produces once the trailing `NullSym` is elided). -/
def joinData : List Expr → ℕ → Bool → String
  | [], _, _ => ""
  | x :: xs, curr, first =>
    (if first then "" else " ") ++ exprString x curr ++ joinData xs curr false

theorem elems_join : ∀ (elems : List Expr) (curr : ℕ) (first : Bool),
    elemsString (elems ++ [nullSym]) curr first = joinData elems curr first
  | [], curr, first => by simp [elemsString, joinData, isNullSym, nullSym]
  | [x], curr, first => by
    simp [elemsString, joinData, isNullSym, nullSym]
  | x :: y :: rest, curr, first => by
    have ih := elems_join (y :: rest) curr false
    simp only [List.cons_append, List.append_eq, elemsString, joinData] at ih ⊢
    rw [ih]

theorem dropWhile_all_append (p : Char → Bool) :
    ∀ (pre : List Char) (d : Char) (rest : List Char),
      (∀ x ∈ pre, p x = true) → p d = false →
      (pre ++ d :: rest).dropWhile p = d :: rest ∧
        (pre ++ d :: rest).takeWhile p = pre
  | [], d, rest, _, hd => by
    simp [List.dropWhile_cons, List.takeWhile_cons, hd]
  | c :: pre, d, rest, h, hd => by
    have hc : p c = true := h c (by simp)
    have ih := dropWhile_all_append p pre d rest (fun x hx => h x (by simp [hx])) hd
    simp [List.dropWhile_cons, List.takeWhile_cons, hc, ih.1, ih.2]

theorem takeWhile_all (p : Char → Bool) :
    ∀ (l : List Char), (∀ x ∈ l, p x = true) →
      l.takeWhile p = l ∧ l.dropWhile p = []
  | [], _ => ⟨rfl, rfl⟩
  | c :: cs, h => by
    have hc : p c = true := h c (by simp)
    have ih := takeWhile_all p cs (fun x hx => h x (by simp [hx]))
    simp [List.takeWhile_cons, List.dropWhile_cons, hc, ih.1, ih.2]

/-- The decimal-digit characters (the only characters `natDigits`
produces). -/
def isDigit10 (c : Char) : Bool :=
  c == '0' || c == '1' || c == '2' || c == '3' || c == '4' ||
    c == '5' || c == '6' || c == '7' || c == '8' || c == '9'

theorem isDigit10_cases (c : Char) (h : isDigit10 c = true) :
    c = '0' ∨ c = '1' ∨ c = '2' ∨ c = '3' ∨ c = '4' ∨ c = '5' ∨ c = '6' ∨
      c = '7' ∨ c = '8' ∨ c = '9' := by
  simp only [isDigit10, Bool.or_eq_true, beq_iff_eq] at h
  tauto

theorem delim_cases (d : Char) (h : delimCh d = true) :
    d = ' ' ∨ d = ')' ∨ d = '\n' := by
  simp only [delimCh, Bool.or_eq_true, beq_iff_eq] at h
  tauto

theorem isSpaceCh_cases (c : Char) (h : isSpaceCh c = true) :
    c = ' ' ∨ c = '\t' ∨ c = '\n' ∨ c = '\r' ∨ c = '\x0b' ∨ c = '\x0c' ∨
      c = '\x85' ∨ c = '\xa0' := by
  simp only [isSpaceCh, Bool.or_eq_true, beq_iff_eq] at h
  tauto

theorem space_facts (c : Char) (h : isSpaceCh c = true) :
    (c == ')') = false ∧ (c == '(') = false := by
  rcases isSpaceCh_cases c h with rfl|rfl|rfl|rfl|rfl|rfl|rfl|rfl <;> decide

theorem delim_facts (d : Char) (h : delimCh d = true) :
    identCh d = false ∧ isDigitCh d = false ∧ (d == '.') = false ∧
      isLetterCh d = false ∧ extAlphaCh d = false := by
  rcases delim_cases d h with rfl | rfl | rfl <;> decide

theorem digit_char_facts (c : Char) (h : isDigit10 c = true) :
    isDigitCh c = true ∧ (c == ')') = false ∧ (c == '(') = false ∧
      isSpaceCh c = false ∧ (c == '"') = false ∧ (c == '\'') = false ∧
      ((c == '+') || (c == '-')) = false ∧ identCh c = true ∧
      isNumStartCh c = true := by
  rcases isDigit10_cases c h with rfl|rfl|rfl|rfl|rfl|rfl|rfl|rfl|rfl|rfl <;>
    decide

theorem ofNat_digit_facts (m : ℕ) (hm : m < 10) :
    isDigit10 (Char.ofNat (48 + m)) = true ∧
      (Char.ofNat (48 + m)).toNat - 48 = m := by
  interval_cases m <;> decide

theorem firstOk_facts (c : Char) (h : firstOkB c = true) :
    (c == ')') = false ∧ (c == '(') = false ∧ isSpaceCh c = false ∧
      (c == '"') = false ∧ (c == '\'') = false ∧ isNumStartCh c = false := by
  simp only [firstOkB, Bool.and_eq_true, Bool.not_eq_true'] at h
  obtain ⟨⟨⟨⟨⟨hid, hop⟩, hq⟩, hqq⟩, hns⟩, _⟩ := h
  have hsp : isSpaceCh c = false ∧ (c == ')') = false := by
    simpa [identCh, Bool.not_eq_true'] using hid
  exact ⟨hsp.2, hop, hsp.1, hq, hqq, hns⟩

/-! ### Single-step behaviour of `lexGeneral` on each character class -/

theorem lexW_space (c : Char) (cs : List Char) (lvl : ℕ)
    (hc : isSpaceCh c = true) : lexW (c :: cs) lvl = lexW cs lvl := by
  obtain ⟨h1, h2⟩ := space_facts c hc
  show lexRun (cs.length + 1 + 1) (c :: cs) lvl = _
  rw [lexRun, if_neg (by simp [h1]), if_neg (by simp [h2]), if_pos hc]
  rfl

theorem lexW_close (cs : List Char) (lvl : ℕ) (h : 0 < lvl) :
    lexW (')' :: cs) lvl = ⟨.closeT, ")"⟩ :: lexW cs (lvl - 1) := by
  show lexRun (cs.length + 1 + 1) (')' :: cs) lvl = _
  rw [lexRun, if_pos (by decide), if_pos h]
  rfl

theorem lexW_open (cs : List Char) (lvl : ℕ) :
    lexW ('(' :: cs) lvl = ⟨.openT, "("⟩ :: lexW cs (lvl + 1) := by
  show lexRun (cs.length + 1 + 1) ('(' :: cs) lvl = _
  rw [lexRun, if_neg (by decide), if_pos (by decide)]
  rfl

theorem lexW_quote (cs : List Char) (lvl : ℕ) :
    lexW ('\'' :: cs) lvl = ⟨.quoteT, "'"⟩ :: lexW cs lvl := by
  show lexRun (cs.length + 1 + 1) ('\'' :: cs) lvl = _
  rw [lexRun, if_neg (by decide), if_neg (by decide), if_neg (by decide),
    if_neg (by decide), if_pos (by decide)]
  rfl

theorem lexW_ident (c : Char) (pre : List Char) (d : Char) (rest : List Char)
    (lvl : ℕ) (hc : firstOkB c = true) (hpre : ∀ x ∈ pre, identCh x = true)
    (hd : delimCh d = true) :
    lexW (c :: (pre ++ d :: rest)) lvl =
      ⟨.identT, String.mk (c :: pre)⟩ :: lexW (d :: rest) lvl := by
  obtain ⟨hcl, hop, hsp, hq, hqq, hns⟩ := firstOk_facts c hc
  have hsplit := dropWhile_all_append identCh pre d rest hpre (delim_facts d hd).1
  have hid : identSplit [c] (pre ++ d :: rest) =
      ([⟨.identT, String.mk (c :: pre)⟩], d :: rest) := by
    unfold identSplit
    rw [hsplit.1, hsplit.2, if_neg (by simp)]
    simp
  show lexRun ((pre ++ d :: rest).length + 1 + 1) (c :: (pre ++ d :: rest)) lvl
      = _
  rw [lexRun, if_neg (by simp [hcl]), if_neg (by simp [hop]),
    if_neg (by simp [hsp]), if_neg (by simp [hq]), if_neg (by simp [hqq]),
    if_neg (by simp [hns]), hid]
  have hlen : (d :: rest).length < (pre ++ d :: rest).length + 1 := by
    simp [List.length_append]
    omega
  rw [lexRun_eq_lexW _ _ lvl hlen]
  rfl

theorem dotSplit_not_dot (d : Char) (rest : List Char)
    (hd : (d == '.') = false) : dotSplit (d :: rest) = (0, [], d :: rest) := by
  unfold dotSplit
  split
  · next t ht =>
    have : d = '.' := (List.cons.injEq _ _ _ _ ▸ ht).1
    simp [this] at hd
  · rfl

theorem lexW_num_digits (ds : List Char) (d : Char) (rest : List Char)
    (lvl : ℕ) (h0 : ds ≠ []) (hds : ∀ x ∈ ds, isDigit10 x = true)
    (hd : delimCh d = true) :
    lexW (ds ++ d :: rest) lvl =
      ⟨.numberT, String.mk ds⟩ :: lexW (d :: rest) lvl := by
  obtain ⟨c, ds', rfl⟩ : ∃ c ds', ds = c :: ds' := by
    cases ds with
    | nil => exact absurd rfl h0
    | cons c ds' => exact ⟨c, ds', rfl⟩
  obtain ⟨hdig, hcl, hop, hsp, hq, hqq, hpm, _, hnst⟩ :=
    digit_char_facts c (hds c (by simp))
  have hds' : ∀ x ∈ ds', isDigitCh x = true :=
    fun x hx => (digit_char_facts x (hds x (by simp [hx]))).1
  have hsplit := dropWhile_all_append isDigitCh ds' d rest hds'
    (delim_facts d hd).2.1
  have hdot : dotSplit (d :: rest) = (0, [], d :: rest) :=
    dotSplit_not_dot d rest (delim_facts d hd).2.2.1
  have hns : numSplit c (ds' ++ d :: rest) =
      (ds'.length + 1, c :: ds', d :: rest) := by
    unfold numSplit
    rw [if_neg (by simp [hpm])]
    rw [List.takeWhile_cons_of_pos hdig, List.dropWhile_cons_of_pos hdig,
      hsplit.1, hsplit.2, hdot]
    simp
  have hcont : numIdentCont (d :: rest) = false := by
    simp [numIdentCont, (delim_facts d hd).2.2.2.1, (delim_facts d hd).2.2.2.2]
  show lexRun ((ds' ++ d :: rest).length + 1 + 1) (c :: (ds' ++ d :: rest)) lvl
      = _
  rw [lexRun, if_neg (by simp [hcl]), if_neg (by simp [hop]),
    if_neg (by simp [hsp]), if_neg (by simp [hq]), if_neg (by simp [hqq]),
    if_pos hnst, hns]
  rw [if_neg (by simp [hcont]), if_neg (by simp [hpm])]
  have hlen : (d :: rest).length < (ds' ++ d :: rest).length + 1 := by
    simp [List.length_append]
    omega
  rw [lexRun_eq_lexW _ _ lvl hlen]

theorem lexW_num_neg (ds : List Char) (d : Char) (rest : List Char)
    (lvl : ℕ) (h0 : ds ≠ []) (hds : ∀ x ∈ ds, isDigit10 x = true)
    (hd : delimCh d = true) :
    lexW ('-' :: (ds ++ d :: rest)) lvl =
      ⟨.numberT, String.mk ('-' :: ds)⟩ :: lexW (d :: rest) lvl := by
  have hds' : ∀ x ∈ ds, isDigitCh x = true :=
    fun x hx => (digit_char_facts x (hds x hx)).1
  have hsplit := dropWhile_all_append isDigitCh ds d rest hds'
    (delim_facts d hd).2.1
  have hdot : dotSplit (d :: rest) = (0, [], d :: rest) :=
    dotSplit_not_dot d rest (delim_facts d hd).2.2.1
  have hns : numSplit '-' (ds ++ d :: rest) = (ds.length, '-' :: ds, d :: rest) := by
    unfold numSplit
    rw [if_pos (by decide), hsplit.1, hsplit.2, hdot]
    simp
  have hcont : numIdentCont (d :: rest) = false := by
    simp [numIdentCont, (delim_facts d hd).2.2.2.1, (delim_facts d hd).2.2.2.2]
  have hcnt : (ds.length == 0) = false := by
    simp [List.length_eq_zero]
    exact h0
  show lexRun ((ds ++ d :: rest).length + 1 + 1) ('-' :: (ds ++ d :: rest)) lvl
      = _
  rw [lexRun, if_neg (by decide), if_neg (by decide), if_neg (by decide),
    if_neg (by decide), if_neg (by decide), if_pos (by decide), hns]
  rw [if_neg (by simp [hcont]), if_neg (by simp [hcnt])]
  have hlen : (d :: rest).length < (ds ++ d :: rest).length + 1 := by
    simp [List.length_append]
    omega
  rw [lexRun_eq_lexW _ _ lvl hlen]

theorem lexW_quotes : ∀ (k : ℕ) (cs : List Char) (lvl : ℕ),
    lexW (List.replicate k '\'' ++ cs) lvl =
      List.replicate k (⟨.quoteT, "'"⟩ : Token) ++ lexW cs lvl
  | 0, cs, lvl => by simp
  | k + 1, cs, lvl => by
    simp only [List.replicate_succ, List.cons_append]
    rw [lexW_quote, lexW_quotes k cs lvl]

theorem lexW_nil (lvl : ℕ) : lexW [] lvl = [⟨.eofT, ""⟩] := rfl

/-! ### Decimal digits round-trip: `strconv.ParseFloat` re-reads what
`FormatFloat` printed (at integral values) -/

theorem digitsVal_append (xs : List Char) (x : Char) :
    digitsVal (xs ++ [x]) = digitsVal xs * 10 + (x.toNat - 48) := by
  simp [digitsVal, List.foldl_append]

theorem natDigitsAux_spec : ∀ (fuel n : ℕ), n < fuel →
    digitsVal (natDigitsAux fuel n) = n ∧
      (∀ x ∈ natDigitsAux fuel n, isDigit10 x = true) ∧
      natDigitsAux fuel n ≠ []
  | 0, n, h => absurd h (by omega)
  | fuel + 1, n, h => by
    by_cases h10 : n < 10
    · rw [natDigitsAux, if_pos h10]
      refine ⟨?_, ?_, by simp⟩
      · simp [digitsVal, (ofNat_digit_facts n h10).2]
      · intro x hx
        simp only [List.mem_singleton] at hx
        subst hx
        exact (ofNat_digit_facts n h10).1
    · rw [natDigitsAux, if_neg h10]
      have hdiv : n / 10 < fuel := by
        have := Nat.div_lt_self (by omega : 0 < n) (by omega : 1 < 10)
        omega
      obtain ⟨ih1, ih2, ih3⟩ := natDigitsAux_spec fuel (n / 10) hdiv
      have hmod := ofNat_digit_facts (n % 10) (Nat.mod_lt n (by omega))
      refine ⟨?_, ?_, by simp⟩
      · rw [digitsVal_append, ih1, hmod.2]
        omega
      · intro x hx
        rcases List.mem_append.mp hx with hx | hx
        · exact ih2 x hx
        · simp only [List.mem_singleton] at hx
          subst hx
          exact hmod.1

theorem natDigits_spec (n : ℕ) : digitsVal (natDigits n) = n ∧
    (∀ x ∈ natDigits n, isDigit10 x = true) ∧ natDigits n ≠ [] :=
  natDigitsAux_spec (n + 1) n (by omega)

theorem parseFloat_digits (c : Char) (cs : List Char) (hc : isDigit10 c = true)
    (hcs : ∀ x ∈ cs, isDigitCh x = true) :
    parseFloat (String.mk (c :: cs)) = some ((digitsVal (c :: cs) : ℕ) : ℚ) := by
  have hall : ∀ x ∈ c :: cs, isDigitCh x = true := by
    intro x hx
    rcases List.mem_cons.mp hx with rfl | hx
    · exact (digit_char_facts x hc).1
    · exact hcs x hx
  have htk := takeWhile_all isDigitCh (c :: cs) hall
  rcases isDigit10_cases c hc with rfl|rfl|rfl|rfl|rfl|rfl|rfl|rfl|rfl|rfl <;>
    simp [parseFloat, htk.1, htk.2]

theorem parseFloat_neg_digits (c : Char) (cs : List Char)
    (hc : isDigit10 c = true) (hcs : ∀ x ∈ cs, isDigitCh x = true) :
    parseFloat (String.mk ('-' :: c :: cs)) =
      some (-((digitsVal (c :: cs) : ℕ) : ℚ)) := by
  have hall : ∀ x ∈ c :: cs, isDigitCh x = true := by
    intro x hx
    rcases List.mem_cons.mp hx with rfl | hx
    · exact (digit_char_facts x hc).1
    · exact hcs x hx
  have htk := takeWhile_all isDigitCh (c :: cs) hall
  simp [parseFloat, htk.1, htk.2]

theorem parseFloat_natStr (n : ℕ) : parseFloat (natStr n) = some (n : ℚ) := by
  obtain ⟨h1, h2, h3⟩ := natDigits_spec n
  obtain ⟨c, cs, hcons⟩ := List.exists_cons_of_ne_nil h3
  have hc : isDigit10 c = true := h2 c (by rw [hcons]; simp)
  have hcs : ∀ x ∈ cs, isDigitCh x = true := fun x hx =>
    (digit_char_facts x (h2 x (by rw [hcons]; simp [hx]))).1
  calc parseFloat (natStr n) = parseFloat (String.mk (c :: cs)) := by
        rw [natStr, hcons]
    _ = some ((digitsVal (c :: cs) : ℕ) : ℚ) := parseFloat_digits c cs hc hcs
    _ = some ((n : ℕ) : ℚ) := by rw [← hcons, h1]

theorem rat_num_cast (v : ℚ) (hv : v.den = 1) : ((v.num : ℤ) : ℚ) = v := by
  have := Rat.num_div_den v
  rw [hv] at this
  simpa using this

theorem parseFloat_numToString (v : ℚ) (hv : v.den = 1) :
    parseFloat (numToString v) = some v := by
  rw [numToString, if_pos hv, intStr]
  by_cases hneg : v.num < 0
  · rw [if_pos hneg]
    obtain ⟨h1, h2, h3⟩ := natDigits_spec v.num.natAbs
    obtain ⟨c, cs, hcons⟩ := List.exists_cons_of_ne_nil h3
    have hc : isDigit10 c = true := h2 c (by rw [hcons]; simp)
    have hcs : ∀ x ∈ cs, isDigitCh x = true := fun x hx =>
      (digit_char_facts x (h2 x (by rw [hcons]; simp [hx]))).1
    have hdata : "-" ++ natStr v.num.natAbs = String.mk ('-' :: c :: cs) := by
      rw [natStr, hcons]
      rfl
    rw [hdata, parseFloat_neg_digits c cs hc hcs, ← hcons, h1]
    have habs : ((v.num.natAbs : ℤ) : ℚ) = ((-v.num : ℤ) : ℚ) := by
      rw [Int.ofNat_natAbs_of_nonpos (le_of_lt hneg)]
    have hcast : ((v.num.natAbs : ℕ) : ℚ) = ((v.num.natAbs : ℤ) : ℚ) := by
      rw [← Int.cast_natCast]
    rw [hcast, habs, Int.cast_neg, neg_neg, rat_num_cast v hv]
  · rw [if_neg hneg]
    rw [parseFloat_natStr]
    have : ((v.num.toNat : ℕ) : ℚ) = ((v.num : ℤ) : ℚ) := by
      rw [← Int.cast_natCast, Int.toNat_of_nonneg (le_of_not_lt hneg)]
    rw [this, rat_num_cast v hv]

/-- Lexing the printed form of an integral number followed by a
delimiter yields one `TokenNumber` carrying exactly that form. -/
theorem lexW_numToString (v : ℚ) (hv : v.den = 1) (d : Char)
    (rest : List Char) (lvl : ℕ) (hd : delimCh d = true) :
    lexW ((numToString v).data ++ d :: rest) lvl =
      ⟨.numberT, numToString v⟩ :: lexW (d :: rest) lvl := by
  rw [numToString, if_pos hv, intStr]
  by_cases hneg : v.num < 0
  · rw [if_pos hneg]
    obtain ⟨_, h2, h3⟩ := natDigits_spec v.num.natAbs
    show lexW (('-' :: natDigits v.num.natAbs) ++ d :: rest) lvl = _
    rw [List.cons_append,
      lexW_num_neg (natDigits v.num.natAbs) d rest lvl h3 h2 hd]
    rfl
  · rw [if_neg hneg]
    obtain ⟨_, h2, h3⟩ := natDigits_spec v.num.toNat
    show lexW (natDigits v.num.toNat ++ d :: rest) lvl = _
    rw [lexW_num_digits (natDigits v.num.toNat) d rest lvl h3 h2 hd]
    rfl

/-! ### Quote tokens -/

theorem pnext_quotes : ∀ (k f q : ℕ) (ts : List Token),
    pnext (f + k) q (List.replicate k (⟨.quoteT, "'"⟩ : Token) ++ ts) =
      pnext f (q + k) ts
  | 0, f, q, ts => by simp
  | k + 1, f, q, ts => by
    have hf : f + (k + 1) = (f + k) + 1 := by omega
    rw [hf]
    simp only [List.replicate_succ, List.cons_append]
    show pnext (f + k) (q + 1) (List.replicate k (⟨.quoteT, "'"⟩ : Token) ++ ts)
        = _
    rw [pnext_quotes k f (q + 1) ts]
    have : q + 1 + k = q + (k + 1) := by omega
    rw [this]

/-! ### Parser steps on single tokens -/

theorem pnext_ident_pos (s : String) (q : ℕ) (ts : List Token) (g : ℕ)
    (hq : q ≠ 0) :
    pnext (g + 1) q (⟨.identT, s⟩ :: ts) = some (some (.sym s q), none, ts) := by
  rw [pnext]
  simp [hq]

theorem pnext_number (v : ℚ) (hv : v.den = 1) (q : ℕ) (ts : List Token)
    (g : ℕ) : pnext (g + 1) q (⟨.numberT, numToString v⟩ :: ts) =
      some (some (.num v q), none, ts) := by
  rw [pnext]
  simp [parseFloat_numToString v hv]

theorem pnext_open (q : ℕ) (ts : List Token) (g : ℕ) :
    pnext (g + 1) q (⟨.openT, "("⟩ :: ts) = plist g q ts [] := rfl

theorem pnext_close (q : ℕ) (ts : List Token) (g : ℕ) :
    pnext (g + 1) q (⟨.closeT, ")"⟩ :: ts) =
      some (some (.special .closeBracketT), none, ts) := rfl

theorem plist_close (fuel q : ℕ) (ts : List Token) (acc : List Expr) :
    plist (fuel + 2) q (⟨.closeT, ")"⟩ :: ts) acc =
      some (some (finishList q acc), none, ts) := rfl

theorem plist_step (fuel q : ℕ) (ts rest' : List Token) (acc : List Expr)
    (x : Expr) (hx : pnext fuel q ts = some (some x, none, rest'))
    (hnx : ∀ t, x ≠ .special t) :
    plist (fuel + 1) q ts acc = plist fuel q rest' (acc ++ [x]) := by
  rw [plist, hx]
  cases x <;> try rfl
  exact absurd rfl (hnx _)

/-! ### The restricted round trip -/

theorem string_data_append (a b : String) : (a ++ b).data = a.data ++ b.data :=
  rfl

theorem string_mk_data (s : String) : String.mk s.data = s := rfl

theorem delimHead_cons (d : Char) (r : List Char) (h : delimCh d = true) :
    delimHead (d :: r) := h

theorem delimHead_elim (rest : List Char) (h : delimHead rest) :
    ∃ d rest', rest = d :: rest' ∧ delimCh d = true := by
  cases rest with
  | nil => exact h.elim
  | cons d r => exact ⟨d, r, rfl, h⟩

theorem identOkB_parts (s : String) (hs : identOkB s = true) :
    ∃ c cs, s.data = c :: cs ∧ firstOkB c = true ∧ (c == '#') = false ∧
      ∀ x ∈ cs, identCh x = true := by
  unfold identOkB at hs
  split at hs
  · exact absurd hs (by simp)
  · next c cs heq =>
    simp only [Bool.and_eq_true] at hs
    refine ⟨c, cs, heq, hs.1, ?_, ?_⟩
    · have h1 := hs.1
      unfold firstOkB at h1
      simp only [Bool.and_eq_true, Bool.not_eq_true'] at h1
      exact h1.2
    · intro x hx
      exact List.all_eq_true.mp hs.2 x hx

/-- What a successful round-trip child contributes: a token block that
its printed form lexes to (in front of any delimiter-headed rest), and
that the parser reads back at quote level `L` as exactly the original
expression. -/
def ChildOK (L : ℕ) (e : Expr) : Prop :=
  (∀ t, e ≠ Expr.special t) ∧
  ∃ toks : List Token,
    (∀ (rest : List Char) (lvl : ℕ), delimHead rest →
      lexW ((exprString e (L + 1)).data ++ rest) lvl = toks ++ lexW rest lvl) ∧
    ∃ f : ℕ, ∀ (g : ℕ) (ts : List Token), f ≤ g →
      pnext g L (toks ++ ts) = some (some e, none, ts)

theorem joinData_delimHead (xs : List Expr) (L : ℕ) (rest : List Char)
    (hr : delimHead rest) : delimHead ((joinData xs L false).data ++ rest) := by
  cases xs with
  | nil => simpa [joinData] using hr
  | cons x xs =>
    have hstep : (joinData (x :: xs) L false).data ++ rest =
        ' ' :: ((exprString x L).data ++ ((joinData xs L false).data ++ rest))
        := by
      show ((" " ++ exprString x L ++ joinData xs L false)).data ++ rest = _
      simp [string_data_append]
    rw [hstep]
    exact delimHead_cons ' ' _ (by decide)

theorem children_ok (L : ℕ) : ∀ (elems : List Expr),
    (∀ e ∈ elems, ChildOK L e) → ∀ (first : Bool),
    ∃ ctoks : List Token,
      (∀ (rest : List Char) (lvl : ℕ), delimHead rest →
        lexW ((joinData elems (L + 1) first).data ++ rest) lvl =
          ctoks ++ lexW rest lvl) ∧
      ∃ f : ℕ, ∀ (g : ℕ) (ts : List Token) (acc : List Expr), f ≤ g →
        plist g L (ctoks ++ ⟨.closeT, ")"⟩ :: ts) acc =
          some (some (finishList L (acc ++ elems)), none, ts)
  | [], _, first => by
    refine ⟨[], ?_, 2, ?_⟩
    · intro rest lvl _
      simp [joinData]
    · intro g ts acc hg
      obtain ⟨g', rfl⟩ : ∃ g', g = g' + 2 := ⟨g - 2, by omega⟩
      simp only [List.nil_append]
      rw [plist_close]
      simp
  | x :: xs, h, first => by
    obtain ⟨hnx, xtoks, hxlex, fx, hxparse⟩ := h x (by simp)
    obtain ⟨ctoks, hclex, fc, hcparse⟩ :=
      children_ok L xs (fun e he => h e (by simp [he])) false
    refine ⟨xtoks ++ ctoks, ?_, fx + fc + 1, ?_⟩
    · intro rest lvl hr
      have hd : delimHead ((joinData xs (L + 1) false).data ++ rest) :=
        joinData_delimHead xs (L + 1) rest hr
      have hx1 := hxlex ((joinData xs (L + 1) false).data ++ rest) lvl hd
      cases first
      · have hjoin : ((joinData (x :: xs) (L + 1) false).data ++ rest) =
            ' ' :: ((exprString x (L + 1)).data ++
              ((joinData xs (L + 1) false).data ++ rest)) := by
          show ((" " ++ exprString x (L + 1) ++
            joinData xs (L + 1) false)).data ++ rest = _
          simp [string_data_append]
        rw [hjoin, lexW_space _ _ lvl (by decide), hx1, hclex rest lvl hr]
        simp
      · have hjoin : ((joinData (x :: xs) (L + 1) true).data ++ rest) =
            (exprString x (L + 1)).data ++
              ((joinData xs (L + 1) false).data ++ rest) := by
          show (("" ++ exprString x (L + 1) ++
            joinData xs (L + 1) false)).data ++ rest = _
          simp [string_data_append]
        rw [hjoin, hx1, hclex rest lvl hr]
        simp
    · intro g ts acc hg
      obtain ⟨g', rfl⟩ : ∃ g', g = g' + 1 := ⟨g - 1, by omega⟩
      have h1 : pnext g' L (xtoks ++ (ctoks ++ ⟨.closeT, ")"⟩ :: ts)) =
          some (some x, none, ctoks ++ ⟨.closeT, ")"⟩ :: ts) :=
        hxparse g' _ (by omega)
      have hassoc : (xtoks ++ ctoks) ++ ⟨.closeT, ")"⟩ :: ts =
          xtoks ++ (ctoks ++ ⟨.closeT, ")"⟩ :: ts) := by simp
      rw [hassoc, plist_step g' L _ _ acc x h1 hnx,
        hcparse g' ts (acc ++ [x]) (by omega)]
      simp

theorem list_inner (L : ℕ) (elems : List Expr)
    (h : ∀ e ∈ elems, ChildOK L e) :
    ∃ ctoks : List Token,
      (∀ (rest : List Char) (lvl : ℕ), delimHead rest →
        lexW (('(' :: (joinData elems (L + 1) true).data ++ [')']) ++ rest) lvl
          = (⟨.openT, "("⟩ :: ctoks ++ [⟨.closeT, ")"⟩]) ++ lexW rest lvl) ∧
      ∃ f : ℕ, ∀ (g : ℕ) (ts : List Token), f ≤ g →
        pnext g L ((⟨.openT, "("⟩ :: ctoks ++ [⟨.closeT, ")"⟩]) ++ ts) =
          some (some (finishList L elems), none, ts) := by
  obtain ⟨ctoks, hclex, fc, hcparse⟩ := children_ok L elems h true
  refine ⟨ctoks, ?_, fc + 1, ?_⟩
  · intro rest lvl hr
    have hstruct : ('(' :: (joinData elems (L + 1) true).data ++ [')']) ++ rest
        = '(' :: ((joinData elems (L + 1) true).data ++ (')' :: rest)) := by
      simp
    rw [hstruct, lexW_open,
      hclex (')' :: rest) (lvl + 1) (delimHead_cons ')' rest (by decide)),
      lexW_close rest (lvl + 1) (by omega)]
    simp
  · intro g ts hg
    obtain ⟨g', rfl⟩ : ∃ g', g = g' + 1 := ⟨g - 1, by omega⟩
    have hshape : (⟨.openT, "("⟩ :: ctoks ++ [⟨.closeT, ")"⟩] : List Token) ++
        ts = ⟨.openT, "("⟩ :: (ctoks ++ ⟨.closeT, ")"⟩ :: ts) := by simp
    rw [hshape, pnext_open L _ g', hcparse g' ts [] (by omega)]
    simp

/-- Every round-trippable child prints to a token block the parser
reads back verbatim at its quote level. -/
theorem rt_child_main : ∀ (L : ℕ) (e : Expr), RTChild L e → ChildOK L e := by
  intro L e h
  induction h with
  | symC s M hs hM =>
    obtain ⟨c, cs, hdata, hc, hsh, hcs⟩ := identOkB_parts s hs
    have hmk : String.mk (c :: cs) = s := by
      rw [← hdata]
    refine ⟨fun t => by simp, [⟨.identT, s⟩], ?_, 1, ?_⟩
    · intro rest lvl hr
      obtain ⟨d, rest', rfl, hd⟩ := delimHead_elim rest hr
      have hprint : exprString (.sym s M) (M + 1) = s := by
        simp only [exprString]
        split
        · rw [getQs, if_neg (by omega)]
          rfl
        · rw [getQs, if_neg (by omega)]
          rfl
      rw [hprint, hdata, List.cons_append,
        lexW_ident c cs d rest' lvl hc hcs hd, hmk]
      rfl
    · intro g ts hg
      obtain ⟨g', rfl⟩ : ∃ g', g = g' + 1 := ⟨g - 1, by omega⟩
      exact pnext_ident_pos s M ts g' (by omega)
  | numC v M hv =>
    refine ⟨fun t => by simp, [⟨.numberT, numToString v⟩], ?_, 1, ?_⟩
    · intro rest lvl hr
      obtain ⟨d, rest', rfl, hd⟩ := delimHead_elim rest hr
      have hprint : exprString (.num v M) (M + 1) = numToString v := by
        simp only [exprString]
        rw [getQs, if_neg (by omega)]
        rfl
      rw [hprint, lexW_numToString v hv d rest' lvl hd]
      rfl
    · intro g ts hg
      obtain ⟨g', rfl⟩ : ∃ g', g = g' + 1 := ⟨g - 1, by omega⟩
      exact pnext_number v hv M ts g'
  | nullC =>
    refine ⟨fun t => by simp [nullSym], [⟨.openT, "("⟩, ⟨.closeT, ")"⟩], ?_, 3,
      ?_⟩
    · intro rest lvl hr
      have hprint : exprString nullSym (1 + 1) = "()" := by decide
      rw [hprint]
      show lexW ('(' :: ')' :: rest) lvl = _
      rw [lexW_open, lexW_close rest (lvl + 1) (by omega)]
      simp
    · intro g ts hg
      obtain ⟨g', rfl⟩ : ∃ g', g = g' + 3 := ⟨g - 3, by omega⟩
      rfl
  | lstC elems M hch hM hne ih =>
    obtain ⟨ctoks, hclex, fc, hcparse⟩ := list_inner M elems ih
    have hfin : finishList M elems = .lst (elems ++ [nullSym]) M := by
      unfold finishList
      rw [if_neg (by
            rintro ⟨h1, h2⟩
            rcases hne with hne | hne
            · exact hne h1
            · omega),
        if_neg (by rintro ⟨h1, _⟩; omega), if_pos (by omega)]
    refine ⟨fun t => by simp, ⟨.openT, "("⟩ :: ctoks ++ [⟨.closeT, ")"⟩], ?_,
      fc, ?_⟩
    · intro rest lvl hr
      have hprint : exprString (.lst (elems ++ [nullSym]) M) (M + 1) =
          "(" ++ joinData elems (M + 1) true ++ ")" := by
        cases elems with
        | nil =>
          simp only [List.nil_append, exprString]
          rw [getQs, if_neg (by omega)]
          have h1 : elemsString [nullSym] (M + 1) true = "" := by
            simp [elemsString, isNullSym, nullSym]
          rw [h1]
          have h2 : joinData [] (M + 1) true = "" := rfl
          rw [h2]
          simp [String.append_assoc]
        | cons x xs =>
          simp only [List.cons_append, exprString]
          rw [getQs, if_neg (by omega)]
          rw [← List.cons_append, elems_join (x :: xs) (M + 1) true]
          simp [String.append_assoc]
      rw [hprint]
      have hdata2 : ("(" ++ joinData elems (M + 1) true ++ ")").data ++ rest =
          ('(' :: (joinData elems (M + 1) true).data ++ [')']) ++ rest := by
        simp [string_data_append]
      rw [hdata2, hclex rest lvl hr]
    · intro g ts hg
      rw [← hfin]
      exact hcparse g ts (by omega)

/-- Every round-trippable top-level expression prints to a line the
lexer and parser read back verbatim at quote level 0. -/
theorem rt_top_main (e : Expr) (h : RTTop e) :
    ∃ f, pnext f 0 (lexW ((exprString e 0).data ++ ['\n']) 0) =
      some (some e, none, [⟨.eofT, ""⟩]) := by
  cases h with
  | varT s hs =>
    obtain ⟨c, cs, hdata, hc, hsh, hcs⟩ := identOkB_parts s hs
    have hmk : String.mk (c :: cs) = s := by
      rw [← hdata]
    refine ⟨2, ?_⟩
    have hprint : exprString (.var s) 0 = s := rfl
    rw [hprint, hdata, List.cons_append,
      lexW_ident c cs '\n' [] 0 hc hcs (by decide), hmk,
      lexW_space '\n' [] 0 (by decide), lexW_nil]
    rfl
  | numT v hv =>
    refine ⟨1, ?_⟩
    have hprint : exprString (.num v 0) 0 = numToString v := by
      simp only [exprString]
      rw [getQs, if_neg (by omega)]
      rfl
    rw [hprint, lexW_numToString v hv '\n' [] 0 (by decide),
      lexW_space '\n' [] 0 (by decide), lexW_nil]
    exact pnext_number v hv 0 [⟨.eofT, ""⟩] 0
  | nullT =>
    exact ⟨5, by decide⟩
  | symT s q hs hq =>
    obtain ⟨c, cs, hdata, hc, hsh, hcs⟩ := identOkB_parts s hs
    have hmk : String.mk (c :: cs) = s := by
      rw [← hdata]
    refine ⟨2 + q, ?_⟩
    have hprint : exprString (.sym s q) 0 =
        String.mk (List.replicate q '\'') ++ s := by
      simp only [exprString]
      split
      · next t ht =>
        rw [hdata] at ht
        have hch : c = '#' := (List.cons.injEq _ _ _ _ ▸ ht).1
        rw [hch] at hsh
        simp at hsh
      · rw [getQs, if_pos (by omega)]
        simp
    rw [hprint]
    have hdat2 : (String.mk (List.replicate q '\'') ++ s).data ++ ['\n'] =
        List.replicate q '\'' ++ (s.data ++ ['\n']) := by
      simp [string_data_append]
    rw [hdat2, lexW_quotes q (s.data ++ ['\n']) 0, hdata, List.cons_append,
      lexW_ident c cs '\n' [] 0 hc hcs (by decide), hmk,
      lexW_space '\n' [] 0 (by decide), lexW_nil]
    rw [pnext_quotes q 2 0 (⟨.identT, s⟩ :: [⟨.eofT, ""⟩])]
    have hq0 : 0 + q = q := by omega
    rw [hq0]
    exact pnext_ident_pos s q [⟨.eofT, ""⟩] 1 (by omega)
  | lstT elems L hch hL hne =>
    have ihs : ∀ e ∈ elems, ChildOK L e := fun e he =>
      rt_child_main L e (hch e he)
    obtain ⟨ctoks, hclex, fc, hcparse⟩ := list_inner L elems ihs
    have hfin : finishList L elems = .lst (elems ++ [nullSym]) L := by
      unfold finishList
      rw [if_neg (by
            rintro ⟨h1, h2⟩
            rcases hne with hne | hne
            · exact hne h1
            · omega),
        if_neg (by rintro ⟨h1, _⟩; omega), if_pos (by omega)]
    refine ⟨fc + L, ?_⟩
    have hprint : exprString (.lst (elems ++ [nullSym]) L) 0 =
        String.mk (List.replicate L '\'') ++
          ("(" ++ joinData elems (L + 1) true ++ ")") := by
      cases elems with
      | nil =>
        simp only [List.nil_append, exprString]
        rw [getQs, if_pos (by omega)]
        have h1 : elemsString [nullSym] (L + 1) true = "" := by
          simp [elemsString, isNullSym, nullSym]
        rw [h1]
        have h2 : joinData [] (L + 1) true = "" := rfl
        rw [h2]
        simp [String.append_assoc]
      | cons x xs =>
        simp only [List.cons_append, exprString]
        rw [getQs, if_pos (by omega)]
        rw [← List.cons_append, elems_join (x :: xs) (L + 1) true]
        simp [String.append_assoc]
    rw [hprint]
    have hdat2 : (String.mk (List.replicate L '\'') ++
        ("(" ++ joinData elems (L + 1) true ++ ")")).data ++ ['\n'] =
        List.replicate L '\'' ++
          (('(' :: (joinData elems (L + 1) true).data ++ [')']) ++ ['\n']) := by
      simp [string_data_append]
    rw [hdat2, lexW_quotes L _ 0,
      hclex ['\n'] 0 (delimHead_cons '\n' [] (by decide)),
      lexW_space '\n' [] 0 (by decide), lexW_nil]
    rw [pnext_quotes L fc 0 _]
    have h0L : 0 + L = L := by omega
    rw [h0L, ← hfin]
    exact hcparse fc [⟨.eofT, ""⟩] (by omega)
  | emptyCallT =>
    exact ⟨4, by decide⟩

/-- C1: the spec's lexical-closure example fails on the code.  The
`Lambda` struct stores no environment and the evaluator has no `lambda`
special form, so after `(define (mk x) (lambda (y) (+ x y)))` the call
`((mk 10) 5)` does not evaluate to `15`: evaluating the body form
`(lambda (y) (+ x y))` looks the head variable `lambda` up in the
environment and fails with an unbound-identifier error (and the child
environment built by `makeEnvironment` is parented on the call-site
chain, not on a stored defining environment). -/
theorem c1_closure_not_captured :
    interpret 64 "(define (mk x) (lambda (y) (+ x y))) ((mk 10) 5)" =
      some (["#<lambda mk>", "lambda: unbound identifier"], .status .ok) ∧
    ["#<lambda mk>", "lambda: unbound identifier"] ≠ ["#<lambda mk>", "15"] := by
  exact ⟨by decide, by decide⟩

/-- C2: a form whose head is the `Variable` named `lambda` is not a
special form in the evaluator's dispatch (`define`/`if`/`load`/`cond`
only): it is treated as a procedure call on the binding of the name
`lambda`, which is unbound in the default environment, so no anonymous
`Lambda` value is produced. -/
theorem c2_lambda_form_missing :
    interpret 64 "(lambda (y) y)" =
      some (["lambda: unbound identifier"], .status .ok) := by decide

/-- C4: when the right-hand side of `(define <name> <expr>)` fails to
evaluate, `evalDefine` does not return the error and does not leave the
environment unchanged: it binds the `VoidExpr` returned alongside the
error and returns `(VoidExpr, nil)`.  Here `(define x y)` with `y`
unbound binds `x` to `#<void>` and reports no error, and the subsequent
`x` prints `#<void>`. -/
theorem c4_define_error_swallowed :
    interpret 64 "(define x y) x\n" =
      some (["#<void>", "#<void>"], .status .ok) ∧
    eval 64 initialEnv (.lst [.var "define", .var "x", .var "y"] 0) =
      some ([("x", Expr.voidE) :: defaultFrame], .ret .voidE none) ∧
    envFind [("x", Expr.voidE) :: defaultFrame] "x" = (Expr.voidE, none) := by
  exact ⟨by decide, by decide, by decide⟩

/-- C9: `remainder` and `quotient` do truncate to signed integers (for
example `(remainder -7 2)` is `-1` and `(quotient -7 2)` is `-3`), but
a divisor that truncates to 0 hits Go's integer division inside
`int64(num.Val) % int64(div.Val)`, which panics and kills the host
process instead of returning a contract-violation error. -/
theorem c9_division_by_zero_panics :
    interpret 64 "(remainder 1 0)" =
      some ([], .panicked "runtime error: integer divide by zero") ∧
    interpret 64 "(quotient 1 0)" =
      some ([], .panicked "runtime error: integer divide by zero") ∧
    interpret 64 "(remainder -7 2)" = some (["-1"], .status .ok) ∧
    interpret 64 "(quotient -7 2)" = some (["-3"], .status .ok) := by
  exact ⟨by decide, by decide, by decide, by decide⟩

/-- C3 counterexample: `and` does not short-circuit evaluation.  The
first `#f` of `(and #f (car 5))` is at index 0, yet the element at
index 1 is still evaluated: the run produces the `car` contract
violation instead of printing `#f`. -/
theorem c3_and_not_short_circuit_counterexample :
    interpret 64 "(and #f (car 5))" =
      some (["car: contract violation\n  expected: pair?\n  given: 5"],
        .status .ok) ∧
    (["car: contract violation\n  expected: pair?\n  given: 5"] : List String) ≠
      ["#f"] := by
  exact ⟨by decide, by decide⟩

/-- C7 counterexample: `(list 1)` parses to a call of the built-in
`list`, whose result is the argument `ExprList` built by
`evalProcLambda` — with `Qlevel` 0, not 1 — with a trailing `NullSym`
appended. -/
theorem c7_list_qlevel_counterexample :
    parseNext "(list 1)" =
      some (some (.lst [.var "list", .num 1 0] 0), none, [⟨.eofT, ""⟩]) ∧
    eval 64 initialEnv (.lst [.var "list", .num 1 0] 0) =
      some (initialEnv, .ret (.lst [.num 1 0, nullSym] 0) none) ∧
    qlevelOf (.lst [.num 1 0, nullSym] 0) = 0 ∧
    qlevelOf (.lst [.num 1 0, nullSym] 0) ≠ 1 := by
  exact ⟨by decide, by decide, by decide, by decide⟩

/-- C8: `cons` of two arguments returns an `ExprList` with `qlevel` 1;
when the second argument is an `ExprList` with `Qlevel ≤ 1` its
elements are flattened in behind the first argument, and otherwise the
result is the two-element dotted pair of the arguments. -/
theorem c8_cons_confirmed :
    (∀ (a : Expr) (l : List Expr) (bq : ℕ), bq ≤ 1 →
      procCons [a, .lst l bq] = .ret (.lst (a :: l) 1) none) ∧
    (∀ (a b : Expr),
      (match b with | .lst _ bq => 1 < bq | _ => True) →
      procCons [a, b] = .ret (.lst [a, b] 1) none) := by
  constructor
  · intro a l bq hbq
    simp [procCons, hbq]
  · intro a b hb
    cases b <;> simp [procCons] at hb ⊢
    omega

/-- Witness for C8 at concrete inputs: flattening `(cons 1 '(2))` and
the dotted pair `(cons 1 2)`. -/
theorem c8_cons_confirmed_witness :
    procCons [.num 1 0, .lst [.num 2 0, nullSym] 1] =
      .ret (.lst [.num 1 0, .num 2 0, nullSym] 1) none ∧
    procCons [.num 1 0, .num 2 0] =
      .ret (.lst [.num 1 0, .num 2 0] 1) none :=
  ⟨c8_cons_confirmed.1 (.num 1 0) [.num 2 0, nullSym] 1 (by norm_num),
    c8_cons_confirmed.2 (.num 1 0) (.num 2 0) trivial⟩

/-- C10 counterexample: an input that hits an evaluator error (the
unbound variable `x`) prints and consumes the error but `Interpret`
still returns the `Ok` status, not `Error`. -/
theorem c10_status_counterexample :
    interpret 64 "x\n" = some (["x: unbound identifier"], .status .ok) ∧
    InterpOut.status .ok ≠ InterpOut.status .error := by
  exact ⟨by decide, by decide⟩

/-- C3 (amended): `and` and `or` are ordinary built-in procedures.
Value-wise they short-circuit on the already-evaluated argument list
(`procAnd` returns `#f` at the first `#f` value and otherwise the last
value, `#t` when empty; `procOr` returns the first non-`#f` value, `#f`
otherwise), but `evalProcLambda` evaluates every argument before they
run: any argument whose evaluation fails — even one placed after the
first `#f` — makes the whole `and` call return that failure. -/
theorem c3_and_or_value_level :
    (∀ pre post : List Expr, (∀ x ∈ pre, isFalseSym x = false) →
      procAnd (pre ++ falseSym :: post) = .ret falseSym none) ∧
    (∀ l : List Expr, (∀ x ∈ l, isFalseSym x = false) →
      procAnd l = .ret (l.getLastD trueSym) none) ∧
    (∀ (pre : List Expr) (x : Expr) (post : List Expr),
      (∀ y ∈ pre, isFalseSym y = true) → isFalseSym x = false →
      procOr (pre ++ x :: post) = .ret x none) ∧
    (∀ l : List Expr, (∀ y ∈ l, isFalseSym y = true) →
      procOr l = .ret falseSym none) ∧
    (∀ (g : ℕ) (env : Env) (args : List Expr) (env' : Env) (r : EvalRes),
      envFind env "and" = (.proc .andP, none) →
      evalArgs (g + 1) env args = some (env', .inr r) →
      eval (g + 3) env (.lst (.var "and" :: args) 0) = some (env', r)) := by
  refine ⟨?_, ?_, procOr_first_true, procOr_all_false, ?_⟩
  · intro pre post h
    exact andLoop_first_false pre trueSym post h
  · intro l h
    exact andLoop_no_false l trueSym h
  · intro g env args env' r hfind hargs
    have h1 : eval (g + 1) env (.var "and") =
        some (env, .ret (.proc .andP) none) := by
      simp [eval, hfind]
    rw [show g + 3 = (g + 2) + 1 from rfl,
      eval_var_call (g + 2) env "and" args (by decide) (by decide) (by decide)
        (by decide)]
    simp only [evalProcLambda, h1, hargs]

/-- Witness for C3 at concrete inputs: `procAnd` stops at a `#f` value
and otherwise keeps the last value, `procOr` picks the first truthy
value, and the `and` call `(and #f z)` (with `z` unbound) returns the
unbound-identifier failure produced while evaluating the argument after
the `#f`. -/
theorem c3_and_or_value_level_witness :
    procAnd [trueSym, falseSym, .num 1 0] = .ret falseSym none ∧
    procAnd [.num 1 0, .num 2 0] = .ret (.num 2 0) none ∧
    procOr [falseSym, .num 3 0] = .ret (.num 3 0) none ∧
    procOr [falseSym] = .ret falseSym none ∧
    eval 64 initialEnv (.lst [.var "and", falseSym, .var "z"] 0) =
      some (initialEnv, .ret .voidE (some "z: unbound identifier")) :=
  ⟨c3_and_or_value_level.1 [trueSym] [.num 1 0] (by decide),
    c3_and_or_value_level.2.1 [.num 1 0, .num 2 0] (by decide),
    c3_and_or_value_level.2.2.1 [falseSym] (.num 3 0) [] (by decide) (by decide),
    c3_and_or_value_level.2.2.2.1 [falseSym] (by decide),
    c3_and_or_value_level.2.2.2.2 61 initialEnv [falseSym, .var "z"]
      initialEnv (.ret .voidE (some "z: unbound identifier")) (by decide)
      (by decide)⟩

/-- C5 counterexample: the parser's output for `(f '())` is a call
`ExprList` at `qlevel` 0 whose last element is the `NullSym` singleton
(the quoted empty list written as its final argument), so a call list
can carry a trailing `NullSym`. -/
theorem c5_call_list_trailing_nullsym_counterexample :
    parseNext "(f '())" =
      some (some (.lst [.var "f", nullSym] 0), none, [⟨.eofT, ""⟩]) ∧
    qlevelOf (.lst [.var "f", nullSym] 0) = 0 ∧
    ([Expr.var "f", nullSym].getLast? = some nullSym) := by
  exact ⟨by decide, by decide, by decide⟩

/-- C5 (amended): an empty list read at `qlevel` 1 becomes the
`NullSym` singleton itself; every `ExprList` the parser returns with
`qlevel ≥ 1` — including nested ones — is nonempty and ends in an
appended `NullSym`; and at `qlevel` 0 the list construction rule
appends nothing: it returns exactly the parsed children (or the
`Special{Exit}` marker), so the only way a call list ends in `NullSym`
is that its last written child was a quoted empty list. -/
theorem c5_list_construction :
    (∀ (fuel : ℕ) (v w : String) (ts : List Token),
      pnext (fuel + 3) 1 (⟨.openT, v⟩ :: ⟨.closeT, w⟩ :: ts) =
        some (some nullSym, none, ts)) ∧
    (∀ fuel q toks e err rest, pnext fuel q toks = some (some e, err, rest) →
      qlistsTerminated e = true) ∧
    (∀ l : List Expr,
      finishList 0 l = .special .exitT ∨ finishList 0 l = .lst l 0) := by
  refine ⟨?_, ?_, ?_⟩
  · intro fuel v w ts
    rfl
  · intro fuel q toks e err rest h
    exact (parse_qlists_terminated fuel).1 q toks e err rest h
  · intro l
    by_cases h : l = [Expr.var "exit"]
    · subst h
      left
      rfl
    · right
      simp [finishList, h]

/-- Witness for C5: the deep invariant applied to the parse of
`'(a '(b))` (a quoted list with a nested quoted list), and the empty
quoted list rule at concrete fuel. -/
theorem c5_list_construction_witness :
    qlistsTerminated (.lst [.sym "a" 1, .lst [.sym "b" 2, nullSym] 2, nullSym] 1) =
      true ∧
    pnext 3 1 [⟨.openT, "("⟩, ⟨.closeT, ")"⟩, ⟨.eofT, ""⟩] =
      some (some nullSym, none, [⟨.eofT, ""⟩]) :=
  ⟨c5_list_construction.2.1 20 0 (tokensOf "'(a '(b))")
      (.lst [.sym "a" 1, .lst [.sym "b" 2, nullSym] 2, nullSym] 1) none
      [⟨.eofT, ""⟩] (by decide),
    c5_list_construction.1 0 "(" ")" [⟨.eofT, ""⟩]⟩

/-- C7 (amended): `procList` with no arguments returns the `NullSym`
singleton; with arguments it returns the argument `ExprList` itself
with a trailing `NullSym` appended, keeping the argument list's
`Qlevel`; and through the evaluator a `(list …)` call yields that list
at `Qlevel` 0, because `evalProcLambda` constructs the argument
`ExprList` with `Qlevel` 0. -/
theorem c7_list_behaviour :
    (∀ q : ℕ, procList [] q = .ret nullSym none) ∧
    (∀ (q : ℕ) (args : List Expr), args ≠ [] →
      procList args q = .ret (.lst (args ++ [nullSym]) q) none) ∧
    (∀ (g : ℕ) (env : Env) (args : List Expr) (env' : Env) (vals : List Expr),
      envFind env "list" = (.proc .listP, none) →
      evalArgs (g + 1) env args = some (env', .inl vals) →
      vals ≠ [] →
      eval (g + 3) env (.lst (.var "list" :: args) 0) =
        some (env', .ret (.lst (vals ++ [nullSym]) 0) none)) := by
  refine ⟨?_, ?_, ?_⟩
  · intro q
    rfl
  · intro q args h
    simp [procList, h]
  · intro g env args env' vals hfind hargs hvals
    have h1 : eval (g + 1) env (.var "list") =
        some (env, .ret (.proc .listP) none) := by
      simp [eval, hfind]
    rw [show g + 3 = (g + 2) + 1 from rfl,
      eval_var_call (g + 2) env "list" args (by decide) (by decide) (by decide)
        (by decide)]
    simp only [evalProcLambda, h1, hargs]
    simp [applyPrim, procList, hvals]

/-- Witness for C7: `(list 1 2)` evaluated in a fresh environment. -/
theorem c7_list_behaviour_witness :
    procList [.num 1 0, .num 2 0] 0 =
      .ret (.lst [.num 1 0, .num 2 0, nullSym] 0) none ∧
    eval 64 initialEnv (.lst [.var "list", .num 1 0, .num 2 0] 0) =
      some (initialEnv, .ret (.lst [.num 1 0, .num 2 0, nullSym] 0) none) :=
  ⟨c7_list_behaviour.2.1 0 [.num 1 0, .num 2 0] (by decide),
    c7_list_behaviour.2.2 61 initialEnv [.num 1 0, .num 2 0] initialEnv
      [.num 1 0, .num 2 0] (by decide) (by decide) (by decide)⟩

/-- C10 (amended): `Interpret` never returns the `Error` status — for
every fuel, environment, token stream and output accumulator, a
completed loop yields `Ok`, `Exitted`, or the panic marker, never
`StatusError`; `(exit)` at the top of a form yields `Exitted` and an
error-free input yields `Ok`. -/
theorem c10_interpret_no_error_status :
    (∀ (fuel : ℕ) (env : Env) (toks : List Token) (out : List String)
        (r : List String × InterpOut × Env),
      interpretLoop fuel env toks out = some r →
      r.2.1 ≠ InterpOut.status .error) ∧
    interpret 64 "(exit)" = some (["Got (exit), bye!"], .status .exitted) ∧
    interpret 64 "(+ 1 2)" = some (["3"], .status .ok) := by
  refine ⟨?_, by decide, by decide⟩
  intro fuel
  induction fuel with
  | zero =>
    intro env toks out r h
    simp [interpretLoop] at h
  | succ f ih =>
    intro env toks out r h
    simp only [interpretLoop] at h
    rcases hp : pnext f 0 toks with _ | ⟨oexpr, perr, rest⟩ <;>
      simp only [hp] at h
    · simp at h
    · split at h
      · obtain rfl := Option.some.inj h
        simp
      · split at h
        · obtain rfl := Option.some.inj h
          simp
        · split at h
          · exact ih _ _ _ _ h
          · split at h
            · simp at h
            · split at h
              · exact ih _ _ _ _ h
              · exact ih _ _ _ _ h
            · obtain rfl := Option.some.inj h
              simp
            · obtain rfl := Option.some.inj h
              simp

/-- Witness for C10: the no-`Error`-status property applied to a
completed run that did hit an evaluator error. -/
theorem c10_interpret_no_error_status_witness :
    (["x: unbound identifier"], InterpOut.status Status.ok,
        (initialEnv : Env)).2.1 ≠
      InterpOut.status .error :=
  c10_interpret_no_error_status.1 64 initialEnv (tokensOf "x\n") []
    (["x: unbound identifier"], InterpOut.status Status.ok, initialEnv)
    (by decide)

/-- C6 counterexample: the quoted number `'5` parses to a `Number` with
`qlevel` 1, but `Number.String` suppresses one quote level
(`getQs(n.qlevel, qlevel+1)`), so it prints as `"5"`, which re-reads as
a `Number` with `qlevel` 0 — the `qlevel` annotation does not survive
the round trip, and the two expressions are not structurally equal. -/
theorem c6_roundtrip_counterexample :
    parseNext "'5" = some (some (.num 5 1), none, [⟨.eofT, ""⟩]) ∧
    exprString (.num 5 1) 0 = "5" ∧
    parseNext (exprString (.num 5 1) 0) =
      some (some (.num 5 0), none, [⟨.eofT, ""⟩]) ∧
    Expr.num 5 1 ≠ Expr.num 5 0 :=
  ⟨by decide, by decide, by decide, by decide⟩

/-- C6 (amended): the print-then-re-read round trip is exact on the
`RTTop` grammar: variables and quoted symbols over the safe identifier
alphabet (first character outside the lexer's number/bracket/quote
classes and not `#`), integral numbers at `qlevel` 0, the `NullSym`
singleton, the empty call list, and uniformly quoted lists (every child
carrying the list's own `Qlevel`, with the trailing `NullSym` sentinel
that the printer hides and the parser re-appends).  For such `e`,
lexing and parsing the printed line `exprString e 0 ++ "\n"` returns
exactly `e` with no error and only the end-of-file token left.  Outside
this grammar the round trip genuinely fails: quoted numbers and
`#`-headed symbols drop a quote level, nested extra quoting is
collapsed, and nonempty call lists print in dot notation. -/
theorem c6_roundtrip_restricted (e : Expr) (h : RTTop e) :
    ∃ f, pnext f 0 (tokensOf (exprString e 0 ++ "\n")) =
      some (some e, none, [⟨.eofT, ""⟩]) := by
  show ∃ f, pnext f 0 (lexW ((exprString e 0).data ++ ['\n']) 0) =
    some (some e, none, [⟨.eofT, ""⟩])
  exact rt_top_main e h

/-- Witness for C6 (amended) at the concrete expression `'(a b)`:
printing gives back the source text and re-reading returns the
expression, quote levels included. -/
theorem c6_roundtrip_restricted_witness :
    exprString (.lst [.sym "a" 1, .sym "b" 1, nullSym] 1) 0 = "'(a b)" ∧
    ∃ f, pnext f 0
        (tokensOf (exprString (.lst [.sym "a" 1, .sym "b" 1, nullSym] 1) 0
          ++ "\n")) =
      some (some (.lst [.sym "a" 1, .sym "b" 1, nullSym] 1), none,
        [⟨.eofT, ""⟩]) :=
  ⟨by decide,
    c6_roundtrip_restricted (.lst [.sym "a" 1, .sym "b" 1, nullSym] 1) (by
      have hshape : Expr.lst [.sym "a" 1, .sym "b" 1, nullSym] 1 =
          Expr.lst ([.sym "a" 1, .sym "b" 1] ++ [nullSym]) 1 := rfl
      rw [hshape]
      refine RTTop.lstT [.sym "a" 1, .sym "b" 1] 1 ?_ (by omega)
        (Or.inl (by simp))
      intro e he
      rcases List.mem_cons.mp he with rfl | he
      · exact RTChild.symC "a" 1 (by decide) (by omega)
      · rcases List.mem_cons.mp he with rfl | he
        · exact RTChild.symC "b" 1 (by decide) (by omega)
        · simp at he)⟩

end GoScheme
